import Mathlib

/-!
Verification of the hash-chain log engine of the ESP32 forensic logger
(`IOT_forensic.ino`).  Arduino `String`s are modelled as `List Char`; the
SD-card file is modelled as the list of its lines, exactly as delivered by
`readStringUntil('\n')` (so a line written by `println` carries a trailing
`'\r'`).  SHA-256 is implemented concretely (the sketch calls mbedtls
SHA-256), with bytes obtained from characters by `toNat % 256`.
-/

set_option maxRecDepth 1000000

namespace IotLogger

abbrev Str := List Char

/-! ### SHA-256 (mbedtls_sha256, as used by `sha256` in the sketch) -/

def M32 : Nat := 4294967296

def rotr (n x : Nat) : Nat := ((x >>> n) ||| (x <<< (32 - n))) % M32

def bnot32 (x : Nat) : Nat := x ^^^ 4294967295

def bsig0 (x : Nat) : Nat := (rotr 2 x) ^^^ (rotr 13 x) ^^^ (rotr 22 x)

def bsig1 (x : Nat) : Nat := (rotr 6 x) ^^^ (rotr 11 x) ^^^ (rotr 25 x)

def ssig0 (x : Nat) : Nat := (rotr 7 x) ^^^ (rotr 18 x) ^^^ (x >>> 3)

def ssig1 (x : Nat) : Nat := (rotr 17 x) ^^^ (rotr 19 x) ^^^ (x >>> 10)

def shaK : List Nat :=
  [1116352408, 1899447441, 3049323471, 3921009573, 961987163,
   1508970993, 2453635748, 2870763221, 3624381080, 310598401,
   607225278, 1426881987, 1925078388, 2162078206, 2614888103,
   3248222580, 3835390401, 4022224774, 264347078, 604807628,
   770255983, 1249150122, 1555081692, 1996064986, 2554220882,
   2821834349, 2952996808, 3210313671, 3336571891, 3584528711,
   113926993, 338241895, 666307205, 773529912, 1294757372,
   1396182291, 1695183700, 1986661051, 2177026350, 2456956037,
   2730485921, 2820302411, 3259730800, 3345764771, 3516065817,
   3600352804, 4094571909, 275423344, 430227734, 506948616,
   659060556, 883997877, 958139571, 1322822218, 1537002063,
   1747873779, 1955562222, 2024104815, 2227730452, 2361852424,
   2428436474, 2756734187, 3204031479, 3329325298]

structure H8 where
  a : Nat
  b : Nat
  c : Nat
  d : Nat
  e : Nat
  f : Nat
  g : Nat
  h : Nat
deriving DecidableEq

def shaIV : H8 :=
  ⟨1779033703, 3144134277, 1013904242, 2773480762,
   1359893119, 2600822924, 528734635, 1541459225⟩

def lenBytes (n : Nat) : List Nat :=
  [(n >>> 56) % 256, (n >>> 48) % 256, (n >>> 40) % 256, (n >>> 32) % 256,
   (n >>> 24) % 256, (n >>> 16) % 256, (n >>> 8) % 256, n % 256]

def padMsg (m : List Nat) : List Nat :=
  m ++ 128 :: (List.replicate ((119 - m.length % 64) % 64) 0 ++ lenBytes (m.length * 8))

def chunk4 : List Nat → List Nat
  | b0 :: b1 :: b2 :: b3 :: rest =>
      (((b0 * 256 + b1) * 256 + b2) * 256 + b3) :: chunk4 rest
  | _ => []

def chunks16Aux : Nat → List Nat → List (List Nat)
  | 0, _ => []
  | _, [] => []
  | fuel + 1, x :: xs => (x :: xs.take 15) :: chunks16Aux fuel (xs.drop 15)

def chunks16 (l : List Nat) : List (List Nat) := chunks16Aux l.length l

def buildW : Nat → List Nat → List Nat
  | 0, ws => ws.reverse
  | n + 1, ws =>
      buildW n (((ssig1 (ws.getD 1 0) + ws.getD 6 0 + ssig0 (ws.getD 14 0)
                  + ws.getD 15 0) % M32) :: ws)

def shaStep (s : H8) (wk : Nat × Nat) : H8 :=
  let t1 := (s.h + bsig1 s.e + ((s.e &&& s.f) ^^^ (bnot32 s.e &&& s.g))
             + wk.2 + wk.1) % M32
  let t2 := (bsig0 s.a + ((s.a &&& s.b) ^^^ (s.a &&& s.c) ^^^ (s.b &&& s.c))) % M32
  ⟨(t1 + t2) % M32, s.a, s.b, s.c, (s.d + t1) % M32, s.e, s.f, s.g⟩

def add8 (x y : H8) : H8 :=
  ⟨(x.a + y.a) % M32, (x.b + y.b) % M32, (x.c + y.c) % M32, (x.d + y.d) % M32,
   (x.e + y.e) % M32, (x.f + y.f) % M32, (x.g + y.g) % M32, (x.h + y.h) % M32⟩

def processBlock (st : H8) (blk : List Nat) : H8 :=
  add8 st (((buildW 48 blk.reverse).zip shaK).foldl shaStep st)

def sha256Words (msg : List Nat) : H8 :=
  (chunks16 (chunk4 (padMsg msg))).foldl processBlock shaIV

def wordBytes (w : Nat) : List Nat :=
  [(w >>> 24) % 256, (w >>> 16) % 256, (w >>> 8) % 256, w % 256]

def digestBytes (s : H8) : List Nat :=
  ([s.a, s.b, s.c, s.d, s.e, s.f, s.g, s.h].map wordBytes).flatten

def hexDigit (n : Nat) : Char :=
  if n < 10 then Char.ofNat (48 + n) else Char.ofNat (87 + n)

def byteHex (b : Nat) : List Char := [hexDigit (b / 16), hexDigit (b % 16)]

def hexOfBytes (bs : List Nat) : Str := (bs.map byteHex).flatten

def bytesOfStr (s : Str) : List Nat := s.map (fun c => c.toNat % 256)

/-- Model of the sketch's `sha256 : String → String` (lower-case hex digest). -/
def sha256 (s : Str) : Str := hexOfBytes (digestBytes (sha256Words (bytesOfStr s)))

/-! ### Arduino String helpers (`trim`, `indexOf`, `lastIndexOf`, `substring`) -/

/-- Characters removed by Arduino `String::trim` (C `isspace`). -/
def isSpaceChar (c : Char) : Bool :=
  c = ' ' || c = '\t' || c = '\n' || c = Char.ofNat 11 || c = Char.ofNat 12 || c = '\r'

def trimLeft (s : Str) : Str := s.dropWhile isSpaceChar

def trimRight (s : Str) : Str := (s.reverse.dropWhile isSpaceChar).reverse

/-- Arduino `String::trim`: strip whitespace from both ends. -/
def trim (s : Str) : Str := trimRight (trimLeft s)

/-- Split a string at its first `','`; `none` when there is no comma
(`indexOf(',') < 0`). -/
def splitFirst : Str → Option (Str × Str)
  | [] => none
  | c :: rest =>
      if c = ',' then some ([], rest)
      else (splitFirst rest).map (fun p => (c :: p.1, p.2))

/-- The four substrings cut at the first three commas, as computed by
`verifyChain` lines 165-173; `none` exactly when one of `c1`, `c2`, `c3`
is negative (the "bad CSV" condition).  The fourth component is everything
after the third comma, further commas included. -/
def parseRow (line : Str) : Option (Str × Str × Str × Str) :=
  match splitFirst line with
  | none => none
  | some (dt, r1) =>
    match splitFirst r1 with
    | none => none
    | some (temp, r2) =>
      match splitFirst r2 with
      | none => none
      | some (prev, entry) => some (dt, temp, prev, entry)

/-- Text after the last comma (`lastIndexOf(',')` + `substring(idx+1)`);
`none` when the string has no comma. -/
def afterLastComma (s : Str) : Option Str :=
  (splitFirst s.reverse).map (fun p => p.1.reverse)

/-! ### The logger model

The SD file is the list of its lines as `readStringUntil('\n')` returns
them: `println(s)` appends the element `s ++ ['\r']` (CRLF line ending,
with the `'\n'` consumed by the reader). -/

abbrev Logfile := List Str

def printlnLine (f : Logfile) (s : Str) : Logfile := f ++ [s ++ ['\r']]

/-- `ZERO_HASH` (line 45): sixty-four `'0'` characters. -/
def ZERO_HASH : Str :=
  ("0000000000000000000000000000000000000000000000000000000000000000").data

/-- The header row written by `ensureFileExists` / `resetSystem`. -/
def HEADER : Str := ("datetime,temp,prev_hash,entry_hash").data

/-- `getLastHash` (lines 91-110): last line whose trimmed length exceeds 10,
then the text after its last comma; `""` when there is no such line or no
comma.  The file is assumed to exist (`ensureFileExists` runs at boot). -/
def getLastHash (f : Logfile) : Str :=
  let lastValid :=
    (f.drop 1).foldl (fun acc l => let t := trim l; if 10 < t.length then t else acc) []
  if lastValid = [] then []
  else
    match afterLastComma lastValid with
    | none => []
    | some h => h

/-- The tip hash `appendEntry` links against (lines 115-116); this is the
spec's `currentTip()` accessor: last hash, defaulting to `ZERO_HASH`. -/
def currentTip (f : Logfile) : Str :=
  let p := getLastHash f
  if p = [] then ZERO_HASH else p

/-- One log record: the spec's `{timestamp, value, prevHash, entryHash}`. -/
structure Rec where
  dt : Str
  temp : Str
  prev : Str
  entry : Str
deriving DecidableEq

/-- `raw = dt + "," + tempVal` (line 117). -/
def payload (r : Rec) : Str := r.dt ++ ',' :: r.temp

/-- The CSV text of a record: `raw + "," + prev_hash + "," + entry_hash`
(line 125, before `println` adds the line ending). -/
def core (r : Rec) : Str := r.dt ++ ',' :: r.temp ++ ',' :: r.prev ++ ',' :: r.entry

/-- A record's line as stored in the file (with the `'\r'` of CRLF). -/
def encodeRec (r : Rec) : Str := core r ++ ['\r']

/-- Logger state: the data file plus the NVS trust anchor (`finalhash`). -/
structure LoggerState where
  file : Logfile
  anchor : Str
deriving DecidableEq

/-- The record built by `appendEntry` lines 114-118 for a given timestamp
`dt` (the sketch takes it from `nowTime()`) and value. -/
def appendRec (f : Logfile) (dt tempVal : Str) : Rec :=
  let prev := currentTip f
  ⟨dt, tempVal, prev, sha256 (prev ++ dt ++ ',' :: tempVal)⟩

/-- `appendEntry` (lines 113-133).  `canOpen` tells whether
`SD.open(DATA_FILE, FILE_APPEND)` succeeds; on failure the function returns
before writing anything (line 123).  The returned `Bool` is whether the
call claimed success (printed "Logged: ...", line 132). -/
def appendEntry (canOpen : Bool) (st : LoggerState) (dt tempVal : Str) :
    LoggerState × Bool :=
  let r := appendRec st.file dt tempVal
  if canOpen then
    ({ file := printlnLine st.file (core r), anchor := r.entry }, true)
  else (st, false)

/-- The state reached when `appendEntry` is interrupted after persisting the
row (lines 125-126) but before the NVS anchor update (lines 128-130):
spec §4.3's interruption between commit steps 3 and 4. -/
def appendRowOnly (st : LoggerState) (dt tempVal : Str) : LoggerState :=
  { file := printlnLine st.file (core (appendRec st.file dt tempVal)),
    anchor := st.anchor }

/-- State after `resetSystem` (lines 203-227): fresh header-only file,
anchor `ZERO_HASH`. -/
def resetState : LoggerState :=
  { file := [HEADER ++ ['\r']], anchor := ZERO_HASH }

/-- A sequence of successful appends (each `SD.open` succeeding). -/
def appendSeq (st : LoggerState) : List (Str × Str) → LoggerState
  | [] => st
  | (dt, v) :: rest => appendSeq (appendEntry true st dt v).1 rest

/-! ### The verifier (`verifyChain`, lines 150-200) -/

inductive Reason
  | badCSV
  | prevMismatch
  | hashMismatch
deriving DecidableEq

inductive VerifyResult
  | tampered (lineNo : Nat) (r : Reason)
  | finalMismatch
  | chainOK (count : Nat)
deriving DecidableEq

inductive LineStep
  | skip
  | fail (r : Reason)
  | pass (entry : Str)
deriving DecidableEq

/-- One iteration of the verify loop (lines 159-187) on a raw line:
trim; skip if shorter than 5; split at the first three commas ("bad CSV"
when fewer); check `prev` against the running hash; recompute
`sha256(prev + dt + "," + temp)` against `entry`. -/
def checkLine (expected l : Str) : LineStep :=
  let line := trim l
  if line.length < 5 then .skip
  else
    match parseRow line with
    | none => .fail .badCSV
    | some (dt, temp, prev, entry) =>
      if prev ≠ expected then .fail .prevMismatch
      else if sha256 (prev ++ dt ++ ',' :: temp) ≠ entry then .fail .hashMismatch
      else .pass entry

inductive ScanOut
  | tampered (lineNo : Nat) (r : Reason)
  | done (tip : Str) (count : Nat)
deriving DecidableEq

/-- The verify loop: `lineNo` counts only non-skipped lines and the first
failure is reported at the current `lineNo`. -/
def scanLines (expected : Str) (lineNo : Nat) : List Str → ScanOut
  | [] => .done expected lineNo
  | l :: rest =>
    match checkLine expected l with
    | .skip => scanLines expected lineNo rest
    | .fail r => .tampered (lineNo + 1) r
    | .pass e => scanLines e (lineNo + 1) rest

/-- `verifyChain` on the file contents and the NVS-stored hash: the first
line (header) is read and discarded (line 156), the rest are scanned from
`ZERO_HASH`, and finally the computed tip is compared with the stored
anchor (lines 191-198).  `chainOK` carries the loop's final `lineNo`. -/
def verifyChain (f : Logfile) (stored : Str) : VerifyResult :=
  match scanLines ZERO_HASH 0 (f.drop 1) with
  | .tampered n r => .tampered n r
  | .done tip n => if stored ≠ tip then .finalMismatch else .chainOK n

def tamperPos : VerifyResult → Option Nat
  | .tampered n _ => some n
  | _ => none

/-! ### Well-formedness predicates -/

/-- Spec §3: field free of the delimiter and of line breaks. -/
def cleanField (s : Str) : Bool := decide (',' ∉ s) && decide ('\n' ∉ s)

def headNotWs (s : Str) : Bool :=
  match s with
  | [] => true
  | c :: _ => !isSpaceChar c

/-- A timestamp survives the verifier's `trim` only when it does not start
with whitespace. -/
def goodDt (s : Str) : Bool := cleanField s && headNotWs s

def isHexChar (c : Char) : Bool := decide (c ∈ ("0123456789abcdef").data)

def isHex64 (s : Str) : Bool := s.length == 64 && s.all isHexChar

def goodRec (r : Rec) : Bool := goodDt r.dt && cleanField r.temp

def goodRecs (rs : List Rec) : Bool := rs.all goodRec

/-- Internal self-consistency of a chain starting from `expected`:
each `prevHash` links to the running hash and each `entryHash` commits to
the record's own fields (spec §3 invariants 1-3). -/
def chainOk (expected : Str) : List Rec → Bool
  | [] => true
  | r :: rs =>
      r.prev == expected && r.entry == sha256 (r.prev ++ payload r) && chainOk r.entry rs

/-- The computed tip of a chain (`expected` when it has no records). -/
def tipFrom (expected : Str) : List Rec → Str
  | [] => expected
  | r :: rs => tipFrom r.entry rs

/-- A log file holding exactly the given records. -/
def logfileOf (rs : List Rec) : Logfile := (HEADER ++ ['\r']) :: rs.map encodeRec

def goodInput (p : Str × Str) : Bool := goodDt p.1 && cleanField p.2

def goodInputs (l : List (Str × Str)) : Bool := l.all goodInput

/-- The records a sequence of appends produces when the chain tip starts at
`expected`. -/
def chainRecs (expected : Str) : List (Str × Str) → List Rec
  | [] => []
  | (dt, v) :: rest =>
      ⟨dt, v, expected, sha256 (expected ++ dt ++ ',' :: v)⟩ ::
        chainRecs (sha256 (expected ++ dt ++ ',' :: v)) rest

/-- The logger state holding exactly the records `rs`, with the anchor at
the chain tip (the state reached by appending them from a fresh reset). -/
def stateOf (rs : List Rec) : LoggerState :=
  { file := logfileOf rs, anchor := tipFrom ZERO_HASH rs }

/-- Byte-level replacement of character `i` of a record's stored line by
`c`: replacing a byte by `'\n'` splits the line in two at that point
(`readStringUntil` sees two lines); any other byte leaves one line. -/
def modLines (r : Rec) (i : Nat) (c : Char) : List Str :=
  if c = '\n' then [(core r).take i, (core r).drop (i + 1) ++ ['\r']]
  else [(core r).set i c ++ ['\r']]

theorem sha256_empty_vector :
    sha256 [] =
      ("e3b0c44298fc1c149afbf4c8996fb92427ae41e4649b934ca495991b7852b855").data := by
  decide

theorem sha256_abc_vector :
    sha256 ("abc").data =
      ("ba7816bf8f01cfea414140de5dae2223b00361a396177a9cb410ff61f20015ad").data := by
  decide

end IotLogger

namespace IotLogger

/-! ### Facts about the SHA-256 rendering -/

theorem length_hexOfBytes (bs : List Nat) : (hexOfBytes bs).length = 2 * bs.length := by
  induction bs with
  | nil => rfl
  | cons b bs ih =>
      simp only [hexOfBytes, List.map_cons, List.flatten_cons, List.length_append,
        List.length_cons] at *
      simp [byteHex, ih]
      omega

theorem length_digestBytes (s : H8) : (digestBytes s).length = 32 := by
  simp [digestBytes, wordBytes]

theorem sha256_length (s : Str) : (sha256 s).length = 64 := by
  simp [sha256, length_hexOfBytes, length_digestBytes]

theorem mem_digestBytes_lt {b : Nat} {s : H8} (hb : b ∈ digestBytes s) : b < 256 := by
  simp only [digestBytes, List.mem_flatten, List.mem_map] at hb
  obtain ⟨l, ⟨w, _, rfl⟩, hbl⟩ := hb
  simp only [wordBytes, List.mem_cons, List.not_mem_nil, or_false] at hbl
  rcases hbl with rfl | rfl | rfl | rfl <;> omega

theorem hexDigit_isHex : ∀ n, n < 16 → isHexChar (hexDigit n) = true := by decide

theorem isHexChar_byteHex {b : Nat} (hb : b < 256) :
    ∀ c ∈ byteHex b, isHexChar c = true := by
  intro c hc
  simp only [byteHex, List.mem_cons, List.not_mem_nil, or_false] at hc
  rcases hc with rfl | rfl
  · exact hexDigit_isHex _ (by omega)
  · exact hexDigit_isHex _ (by omega)

theorem sha256_all_hex (s : Str) : ∀ c ∈ sha256 s, isHexChar c = true := by
  intro c hc
  simp only [sha256, hexOfBytes, List.mem_flatten, List.mem_map] at hc
  obtain ⟨l, ⟨b, hb, rfl⟩, hcl⟩ := hc
  exact isHexChar_byteHex (mem_digestBytes_lt hb) c hcl

theorem isHex64_sha256 (s : Str) : isHex64 (sha256 s) = true := by
  simp only [isHex64, Bool.and_eq_true, beq_iff_eq, List.all_eq_true]
  exact ⟨sha256_length s, sha256_all_hex s⟩

theorem isHex64_zero : isHex64 ZERO_HASH = true := by decide

theorem isHexChar_ne_comma {c : Char} (h : isHexChar c = true) : c ≠ ',' := by
  rintro rfl
  exact absurd h (by decide)

theorem isHexChar_ne_newline {c : Char} (h : isHexChar c = true) : c ≠ '\n' := by
  rintro rfl
  exact absurd h (by decide)

theorem isHexChar_not_space {c : Char} (h : isHexChar c = true) :
    isSpaceChar c = false := by
  simp only [isHexChar, decide_eq_true_eq] at h
  fin_cases h <;> decide

theorem isHex64_length {s : Str} (h : isHex64 s = true) : s.length = 64 := by
  simp only [isHex64, Bool.and_eq_true, beq_iff_eq] at h
  exact h.1

theorem isHex64_all {s : Str} (h : isHex64 s = true) :
    ∀ c ∈ s, isHexChar c = true := by
  simp only [isHex64, Bool.and_eq_true, List.all_eq_true] at h
  exact h.2

theorem isHex64_comma_notMem {s : Str} (h : isHex64 s = true) : ',' ∉ s :=
  fun hm => isHexChar_ne_comma (isHex64_all h _ hm) rfl

theorem isHex64_newline_notMem {s : Str} (h : isHex64 s = true) : '\n' ∉ s :=
  fun hm => isHexChar_ne_newline (isHex64_all h _ hm) rfl

theorem isHex64_ne_nil {s : Str} (h : isHex64 s = true) : s ≠ [] := by
  intro hs
  have := isHex64_length h
  simp [hs] at this

theorem isHex64_noWs {s : Str} (h : isHex64 s = true) :
    ∀ c ∈ s, isSpaceChar c = false :=
  fun c hc => isHexChar_not_space (isHex64_all h c hc)

end IotLogger

namespace IotLogger

/-! ### splitFirst / parseRow / afterLastComma -/

theorem splitFirst_eq_none {s : Str} (h : ',' ∉ s) : splitFirst s = none := by
  induction s with
  | nil => rfl
  | cons c rest ih =>
      simp only [List.mem_cons, not_or] at h
      have hc : ¬(c = ',') := fun hh => h.1 hh.symm
      simp [splitFirst, hc, ih h.2]

theorem splitFirst_ne_none_of_mem : ∀ {s : Str}, ',' ∈ s → splitFirst s ≠ none := by
  intro s
  induction s with
  | nil => intro hm; cases hm
  | cons c rest ih =>
      intro hm
      by_cases hc : c = ','
      · simp [splitFirst, hc]
      · rcases List.mem_cons.mp hm with hm1 | hm1
        · exact absurd hm1.symm hc
        · simp only [splitFirst, if_neg hc]
          rcases hsp : splitFirst rest with _ | p
          · exact absurd hsp (ih hm1)
          · simp

theorem splitFirst_none_iff {s : Str} : splitFirst s = none ↔ ',' ∉ s := by
  constructor
  · exact fun h hm => splitFirst_ne_none_of_mem hm h
  · exact splitFirst_eq_none

theorem splitFirst_append {a b : Str} (h : ',' ∉ a) :
    splitFirst (a ++ ',' :: b) = some (a, b) := by
  induction a with
  | nil => simp [splitFirst]
  | cons c rest ih =>
      simp only [List.mem_cons, not_or] at h
      have hc : ¬(c = ',') := fun hh => h.1 hh.symm
      simp [splitFirst, hc, ih h.2]

theorem splitFirst_eq_some {s a b : Str} (h : splitFirst s = some (a, b)) :
    s = a ++ ',' :: b ∧ ',' ∉ a := by
  induction s generalizing a b with
  | nil => simp [splitFirst] at h
  | cons c rest ih =>
      by_cases hc : c = ','
      · subst hc
        have h2 : some (([] : Str), rest) = some (a, b) := by
          simpa [splitFirst] using h
        have h3 := Option.some.inj h2
        have ha : a = ([] : Str) := (congrArg Prod.fst h3).symm
        have hb : b = rest := (congrArg Prod.snd h3).symm
        subst ha
        subst hb
        simp
      · rcases hsp : splitFirst rest with _ | ⟨a1, b1⟩
        · rw [splitFirst, if_neg hc, hsp, Option.map_none'] at h
          cases h
        · rw [splitFirst, if_neg hc, hsp, Option.map_some'] at h
          simp only [Option.some_inj, Prod.mk.injEq] at h
          obtain ⟨ha, hb⟩ := h
          subst hb
          obtain ⟨hr, hna⟩ := ih hsp
          subst hr
          rw [← ha]
          refine ⟨rfl, ?_⟩
          simp only [List.mem_cons, not_or]
          exact ⟨fun hh => hc hh.symm, hna⟩

theorem parseRow_encode {dt temp prev entry : Str}
    (h1 : ',' ∉ dt) (h2 : ',' ∉ temp) (h3 : ',' ∉ prev) :
    parseRow (dt ++ ',' :: (temp ++ ',' :: (prev ++ ',' :: entry)))
      = some (dt, temp, prev, entry) := by
  simp [parseRow, splitFirst_append h1, splitFirst_append h2, splitFirst_append h3]

theorem parseRow_eq_some {s dt temp prev entry : Str}
    (h : parseRow s = some (dt, temp, prev, entry)) :
    s = dt ++ ',' :: (temp ++ ',' :: (prev ++ ',' :: entry))
      ∧ ',' ∉ dt ∧ ',' ∉ temp ∧ ',' ∉ prev := by
  simp only [parseRow] at h
  split at h
  · cases h
  · rename_i a1 r1 hs1
    split at h
    · cases h
    · rename_i a2 r2 hs2
      split at h
      · cases h
      · rename_i a3 r3 hs3
        obtain ⟨rfl, rfl, rfl, rfl⟩ := by
          simpa using h
        obtain ⟨e1, n1⟩ := splitFirst_eq_some hs1
        obtain ⟨e2, n2⟩ := splitFirst_eq_some hs2
        obtain ⟨e3, n3⟩ := splitFirst_eq_some hs3
        subst e3; subst e2; subst e1
        exact ⟨rfl, n1, n2, n3⟩

theorem count_of_splitFirst {s a b : Str} (h : splitFirst s = some (a, b)) :
    s.count ',' = b.count ',' + 1 := by
  obtain ⟨rfl, hna⟩ := splitFirst_eq_some h
  simp [List.count_append, List.count_cons, List.count_eq_zero.mpr hna]

theorem parseRow_eq_none_iff {s : Str} : parseRow s = none ↔ s.count ',' < 3 := by
  rcases h1 : splitFirst s with _ | ⟨a1, r1⟩
  · have hc : s.count ',' = 0 := List.count_eq_zero.mpr (splitFirst_none_iff.mp h1)
    simp [parseRow, h1, hc]
  · have hc1 := count_of_splitFirst h1
    rcases h2 : splitFirst r1 with _ | ⟨a2, r2⟩
    · have hc : r1.count ',' = 0 := List.count_eq_zero.mpr (splitFirst_none_iff.mp h2)
      simp [parseRow, h1, h2]
      omega
    · have hc2 := count_of_splitFirst h2
      rcases h3 : splitFirst r2 with _ | ⟨a3, r3⟩
      · have hc : r2.count ',' = 0 := List.count_eq_zero.mpr (splitFirst_none_iff.mp h3)
        simp [parseRow, h1, h2, h3]
        omega
      · have hc3 := count_of_splitFirst h3
        simp [parseRow, h1, h2, h3]
        omega

theorem afterLastComma_append {a b : Str} (h : ',' ∉ b) :
    afterLastComma (a ++ ',' :: b) = some b := by
  have h2 : (a ++ ',' :: b).reverse = b.reverse ++ ',' :: a.reverse := by simp
  have h3 : ',' ∉ b.reverse := by simpa using h
  rw [afterLastComma, h2, splitFirst_append h3]
  simp

/-! ### trim -/

theorem dropWhile_ws_eq_self {s : Str} (h : headNotWs s = true) :
    s.dropWhile isSpaceChar = s := by
  cases s with
  | nil => rfl
  | cons c rest =>
      simp only [headNotWs, Bool.not_eq_eq_eq_not, Bool.not_true] at h
      simp [List.dropWhile_cons, h]

theorem trimLeft_eq_self {s : Str} (h : headNotWs s = true) : trimLeft s = s :=
  dropWhile_ws_eq_self h

theorem trimRight_eq_self {s : Str} (h : headNotWs s.reverse = true) : trimRight s = s := by
  rw [trimRight, dropWhile_ws_eq_self h, List.reverse_reverse]

theorem trim_eq_self {s : Str} (h1 : headNotWs s = true)
    (h2 : headNotWs s.reverse = true) : trim s = s := by
  rw [trim, trimLeft_eq_self h1, trimRight_eq_self h2]

theorem headNotWs_append_left {s t : Str} (hs : s ≠ []) :
    headNotWs (s ++ t) = headNotWs s := by
  cases s with
  | nil => exact absurd rfl hs
  | cons c rest => rfl

theorem headNotWs_of_noWs {s : Str} (h : ∀ c ∈ s, isSpaceChar c = false) :
    headNotWs s = true := by
  cases s with
  | nil => rfl
  | cons c rest => simp [headNotWs, h c (List.mem_cons_self c rest)]

theorem headNotWs_rev_append {s t : Str} (ht : t ≠ []) :
    headNotWs (s ++ t).reverse = headNotWs t.reverse := by
  rw [List.reverse_append, headNotWs_append_left]
  simpa using ht

theorem trim_println {s : Str} (hs : s ≠ []) (h1 : headNotWs s = true)
    (h2 : headNotWs s.reverse = true) : trim (s ++ ['\r']) = s := by
  have hl : trimLeft (s ++ ['\r']) = s ++ ['\r'] := by
    apply trimLeft_eq_self
    rw [headNotWs_append_left hs]
    exact h1
  have hrev : (s ++ ['\r']).reverse = '\r' :: s.reverse := by simp
  rw [trim, hl, trimRight, hrev, List.dropWhile_cons, if_pos (by decide),
    dropWhile_ws_eq_self h2, List.reverse_reverse]

end IotLogger

namespace IotLogger

/-! ### Record encoding facts -/

theorem cleanField_parts {s : Str} (h : cleanField s = true) : ',' ∉ s ∧ '\n' ∉ s := by
  simpa [cleanField] using h

theorem goodDt_parts {s : Str} (h : goodDt s = true) :
    ',' ∉ s ∧ '\n' ∉ s ∧ headNotWs s = true := by
  simp only [goodDt, Bool.and_eq_true] at h
  exact ⟨(cleanField_parts h.1).1, (cleanField_parts h.1).2, h.2⟩

theorem goodRec_parts {r : Rec} (h : goodRec r = true) :
    ',' ∉ r.dt ∧ '\n' ∉ r.dt ∧ headNotWs r.dt = true ∧ ',' ∉ r.temp ∧ '\n' ∉ r.temp := by
  simp only [goodRec, Bool.and_eq_true] at h
  obtain ⟨h1, h2⟩ := h
  obtain ⟨a, b, c⟩ := goodDt_parts h1
  exact ⟨a, b, c, (cleanField_parts h2).1, (cleanField_parts h2).2⟩

theorem core_assoc (r : Rec) :
    core r = r.dt ++ ',' :: (r.temp ++ ',' :: (r.prev ++ ',' :: r.entry)) := by
  simp [core]

theorem core_concat (r : Rec) :
    core r = (r.dt ++ ',' :: r.temp ++ ',' :: r.prev) ++ ',' :: r.entry := by
  simp [core]

theorem parseRow_core {r : Rec} (h1 : ',' ∉ r.dt) (h2 : ',' ∉ r.temp)
    (h3 : ',' ∉ r.prev) :
    parseRow (core r) = some (r.dt, r.temp, r.prev, r.entry) := by
  rw [core_assoc]
  exact parseRow_encode h1 h2 h3

theorem core_ne_nil (r : Rec) : core r ≠ [] := by
  rw [core_assoc]
  simp

theorem core_length (r : Rec) :
    (core r).length
      = r.dt.length + r.temp.length + r.prev.length + r.entry.length + 3 := by
  rw [core_assoc]
  simp
  omega

theorem headNotWs_core {r : Rec} (hd : headNotWs r.dt = true) :
    headNotWs (core r) = true := by
  rw [core_assoc]
  rcases hdt : r.dt with _ | ⟨c, rest⟩
  · rw [List.nil_append]
    rfl
  · rw [hdt] at hd
    exact hd

theorem headNotWs_core_rev {r : Rec} (he : r.entry ≠ [])
    (hws : ∀ c ∈ r.entry, isSpaceChar c = false) :
    headNotWs (core r).reverse = true := by
  rw [core_assoc]
  rw [headNotWs_rev_append (by simp)]
  rw [← List.singleton_append, headNotWs_rev_append (by simp)]
  rw [headNotWs_rev_append (by simp)]
  rw [← List.singleton_append, headNotWs_rev_append (by simp)]
  rw [headNotWs_rev_append (by simp)]
  rw [← List.singleton_append, headNotWs_rev_append he]
  apply headNotWs_of_noWs
  intro c hc
  exact hws c (by simpa using hc)

theorem trim_encodeRec {r : Rec} (hd : headNotWs r.dt = true) (he : r.entry ≠ [])
    (hws : ∀ c ∈ r.entry, isSpaceChar c = false) : trim (encodeRec r) = core r :=
  trim_println (core_ne_nil r) (headNotWs_core hd) (headNotWs_core_rev he hws)

/-! ### Scan lemmas -/

theorem checkLine_pass {expected : Str} {r : Rec} (hg : goodRec r = true)
    (hprev : r.prev = expected) (hhex : isHex64 expected = true)
    (hent : r.entry = sha256 (r.prev ++ payload r)) :
    checkLine expected (encodeRec r) = .pass r.entry := by
  obtain ⟨hdc, hdn, hdh, htc, htn⟩ := goodRec_parts hg
  have hprevhex : isHex64 r.prev = true := by rw [hprev]; exact hhex
  have hehex : isHex64 r.entry = true := by rw [hent]; exact isHex64_sha256 _
  have htrim : trim (encodeRec r) = core r :=
    trim_encodeRec hdh (isHex64_ne_nil hehex) (isHex64_noWs hehex)
  have hparse := parseRow_core hdc htc (isHex64_comma_notMem hprevhex)
  have hlen : ¬((core r).length < 5) := by
    have h1 := core_length r
    have h2 := isHex64_length hehex
    omega
  have hh2 : sha256 (r.prev ++ r.dt ++ ',' :: r.temp) = r.entry := by
    rw [hent, payload, List.append_assoc]
  simp only [checkLine, htrim]
  rw [if_neg hlen]
  simp only [hparse]
  rw [if_neg (fun hx => hx hprev), if_neg (fun hx => hx hh2)]

theorem scanLines_append (expected : Str) (k : Nat) (xs ys : List Str) :
    scanLines expected k (xs ++ ys) =
      match scanLines expected k xs with
      | .done tip n => scanLines tip n ys
      | .tampered n r => .tampered n r := by
  induction xs generalizing expected k with
  | nil => simp [scanLines]
  | cons l rest ih =>
      simp only [List.cons_append, scanLines]
      rcases hcl : checkLine expected l with _ | r | e <;> simp [hcl, ih]

theorem scanLines_encode :
    ∀ {expected : Str} {rs : List Rec}, goodRecs rs = true →
      chainOk expected rs = true → isHex64 expected = true →
      ∀ k, scanLines expected k (rs.map encodeRec)
            = .done (tipFrom expected rs) (k + rs.length) := by
  intro expected rs
  induction rs generalizing expected with
  | nil => intro _ _ _ k; simp [scanLines, tipFrom]
  | cons r rest ih =>
      intro hg hch hhex k
      simp only [goodRecs, List.all_cons, Bool.and_eq_true] at hg
      simp only [chainOk, Bool.and_eq_true, beq_iff_eq] at hch
      obtain ⟨hgr, hgrest⟩ := hg
      obtain ⟨⟨hprev, hent⟩, hchrest⟩ := hch
      have hpass := checkLine_pass hgr hprev hhex hent
      have hhex2 : isHex64 r.entry = true := by rw [hent]; exact isHex64_sha256 _
      simp only [List.map_cons, scanLines, hpass]
      rw [ih hgrest hchrest hhex2 (k + 1)]
      simp only [tipFrom, List.length_cons]
      congr 1
      omega

end IotLogger

namespace IotLogger

/-! ### getLastHash / currentTip on encoded logs -/

theorem foldl_lastValid :
    ∀ (rs : List Rec) (acc : Str),
      (∀ r ∈ rs, trim (encodeRec r) = core r ∧ 10 < (core r).length) →
      (rs.map encodeRec).foldl
          (fun acc l => let t := trim l; if 10 < t.length then t else acc) acc
        = (rs.map core).getLastD acc := by
  intro rs
  induction rs with
  | nil => intro acc _; rfl
  | cons r rest ih =>
      intro acc hg
      obtain ⟨htr, hlen⟩ := hg r (List.mem_cons_self r rest)
      have hstep :
          (fun acc l => let t := trim l; if 10 < t.length then t else acc) acc
              (encodeRec r) = core r := by
        simp only [htr]
        rw [if_pos hlen]
      simp only [List.map_cons, List.foldl_cons, List.getLastD_cons, hstep]
      exact ih (core r) (fun x hx => hg x (List.mem_cons_of_mem r hx))

theorem chainOk_entry_hash :
    ∀ {expected : Str} {rs : List Rec}, chainOk expected rs = true →
      ∀ r ∈ rs, r.entry = sha256 (r.prev ++ payload r) := by
  intro expected rs
  induction rs generalizing expected with
  | nil => intro _ r hr; cases hr
  | cons q rest ih =>
      intro hch r hr
      simp only [chainOk, Bool.and_eq_true, beq_iff_eq] at hch
      obtain ⟨⟨_, hent⟩, hchrest⟩ := hch
      rcases List.mem_cons.mp hr with rfl | hr2
      · exact hent
      · exact ih hchrest r hr2

theorem chainOk_entry_hex {expected : Str} {rs : List Rec}
    (hch : chainOk expected rs = true) : ∀ r ∈ rs, isHex64 r.entry = true := by
  intro r hr
  rw [chainOk_entry_hash hch r hr]
  exact isHex64_sha256 _

theorem encodeRec_trim_facts {rs : List Rec} (hg : goodRecs rs = true)
    {expected : Str} (hch : chainOk expected rs = true) :
    ∀ r ∈ rs, trim (encodeRec r) = core r ∧ 10 < (core r).length := by
  intro r hr
  have hgr : goodRec r = true := by
    simp only [goodRecs, List.all_eq_true] at hg
    exact hg r hr
  obtain ⟨_, _, hdh, _, _⟩ := goodRec_parts hgr
  have hehex := chainOk_entry_hex hch r hr
  refine ⟨trim_encodeRec hdh (isHex64_ne_nil hehex) (isHex64_noWs hehex), ?_⟩
  have h1 := core_length r
  have h2 := isHex64_length hehex
  omega

theorem tipFrom_concat : ∀ (rs : List Rec) (expected : Str) (r : Rec),
    tipFrom expected (rs ++ [r]) = r.entry := by
  intro rs
  induction rs with
  | nil => intro expected r; rfl
  | cons q rest ih => intro expected r; exact ih q.entry r

theorem getLastHash_encode {rs : List Rec} (hg : goodRecs rs = true)
    (hch : chainOk ZERO_HASH rs = true) {hdr : Str} :
    getLastHash (hdr :: rs.map encodeRec)
      = (rs.map Rec.entry).getLastD [] := by
  have hfold := foldl_lastValid rs [] (encodeRec_trim_facts hg hch)
  rcases List.eq_nil_or_concat rs with rfl | ⟨l, r, rfl⟩
  · rfl
  · simp only [List.concat_eq_append] at hfold ⊢
    simp only [List.map_append, List.map_cons, List.map_nil,
      List.getLastD_concat] at hfold
    have hehex : isHex64 r.entry = true :=
      chainOk_entry_hex hch r (by simp)
    simp only [getLastHash, List.drop_succ_cons, List.drop_zero,
      List.map_append, List.map_cons, List.map_nil, hfold]
    rw [if_neg (core_ne_nil r), core_concat,
      afterLastComma_append (isHex64_comma_notMem hehex)]
    simp [List.getLastD_concat]

theorem currentTip_encode {rs : List Rec} (hg : goodRecs rs = true)
    (hch : chainOk ZERO_HASH rs = true) {hdr : Str} :
    currentTip (hdr :: rs.map encodeRec) = tipFrom ZERO_HASH rs := by
  rcases List.eq_nil_or_concat rs with rfl | ⟨l, r, rfl⟩
  · rfl
  · simp only [List.concat_eq_append] at hg hch ⊢
    have hehex : isHex64 r.entry = true :=
      chainOk_entry_hex hch r (by simp)
    have hgl : getLastHash (hdr :: List.map encodeRec (l ++ [r])) = r.entry := by
      rw [getLastHash_encode hg hch]
      simp only [List.map_append, List.map_cons, List.map_nil, List.getLastD_concat]
    simp only [currentTip, hgl]
    rw [if_neg (isHex64_ne_nil hehex), tipFrom_concat]

/-! ### The append invariant -/

theorem chainOk_concat :
    ∀ {rs : List Rec} {expected : Str} {r : Rec}, chainOk expected rs = true →
      r.prev = tipFrom expected rs → r.entry = sha256 (r.prev ++ payload r) →
      chainOk expected (rs ++ [r]) = true := by
  intro rs
  induction rs with
  | nil =>
      intro expected r _ hp he
      simp only [List.nil_append, chainOk, Bool.and_eq_true, beq_iff_eq]
      exact ⟨⟨hp, he⟩, trivial⟩
  | cons q rest ih =>
      intro expected r hch hp he
      simp only [chainOk, Bool.and_eq_true, beq_iff_eq] at hch
      obtain ⟨⟨h1, h2⟩, hchrest⟩ := hch
      simp only [List.cons_append, chainOk, Bool.and_eq_true, beq_iff_eq]
      exact ⟨⟨h1, h2⟩, ih hchrest hp he⟩

theorem goodRecs_concat {rs : List Rec} {r : Rec} (hg : goodRecs rs = true)
    (hr : goodRec r = true) : goodRecs (rs ++ [r]) = true := by
  simp only [goodRecs, List.all_append, List.all_cons, List.all_nil,
    Bool.and_eq_true] at *
  exact ⟨hg, hr, trivial⟩

theorem LoggerState_eq {s t : LoggerState} (hf : s.file = t.file)
    (ha : s.anchor = t.anchor) : s = t := by
  cases s
  cases t
  cases hf
  cases ha
  rfl

theorem appendEntry_true (st : LoggerState) (dt v : Str) :
    appendEntry true st dt v
      = ({ file := printlnLine st.file (core (appendRec st.file dt v)),
           anchor := (appendRec st.file dt v).entry }, true) := rfl

theorem appendEntry_false (st : LoggerState) (dt v : Str) :
    appendEntry false st dt v = (st, false) := rfl

theorem appendRec_encode {rs : List Rec} (dt v : Str) (hg : goodRecs rs = true)
    (hch : chainOk ZERO_HASH rs = true) :
    appendRec (logfileOf rs) dt v
      = ⟨dt, v, tipFrom ZERO_HASH rs,
          sha256 (tipFrom ZERO_HASH rs ++ dt ++ ',' :: v)⟩ := by
  have htip : currentTip (logfileOf rs) = tipFrom ZERO_HASH rs :=
    currentTip_encode hg hch
  simp only [appendRec, htip]

theorem printlnLine_logfileOf (rs : List Rec) (r : Rec) :
    printlnLine (logfileOf rs) (core r) = logfileOf (rs ++ [r]) := by
  simp [printlnLine, logfileOf, List.map_append, encodeRec]

theorem appendEntry_stateOf {rs : List Rec} (dt v : Str) (hg : goodRecs rs = true)
    (hch : chainOk ZERO_HASH rs = true) :
    (appendEntry true (stateOf rs) dt v).1
      = stateOf (rs ++ [⟨dt, v, tipFrom ZERO_HASH rs,
          sha256 (tipFrom ZERO_HASH rs ++ dt ++ ',' :: v)⟩]) := by
  rw [appendEntry_true]
  apply LoggerState_eq
  · show printlnLine (stateOf rs).file (core (appendRec (stateOf rs).file dt v))
        = _
    rw [show (stateOf rs).file = logfileOf rs from rfl,
      appendRec_encode dt v hg hch, printlnLine_logfileOf]
    rfl
  · show (appendRec (stateOf rs).file dt v).entry = _
    rw [show (stateOf rs).file = logfileOf rs from rfl,
      appendRec_encode dt v hg hch]
    show sha256 (tipFrom ZERO_HASH rs ++ dt ++ ',' :: v) = (stateOf _).anchor
    rw [show (stateOf (rs ++ [(⟨dt, v, tipFrom ZERO_HASH rs,
        sha256 (tipFrom ZERO_HASH rs ++ dt ++ ',' :: v)⟩ : Rec)])).anchor
        = tipFrom ZERO_HASH (rs ++ [(⟨dt, v, tipFrom ZERO_HASH rs,
        sha256 (tipFrom ZERO_HASH rs ++ dt ++ ',' :: v)⟩ : Rec)]) from rfl,
      tipFrom_concat]

theorem appendRowOnly_stateOf {rs : List Rec} (dt v : Str) (hg : goodRecs rs = true)
    (hch : chainOk ZERO_HASH rs = true) :
    appendRowOnly (stateOf rs) dt v
      = { file := logfileOf (rs ++ [⟨dt, v, tipFrom ZERO_HASH rs,
            sha256 (tipFrom ZERO_HASH rs ++ dt ++ ',' :: v)⟩]),
          anchor := tipFrom ZERO_HASH rs } := by
  apply LoggerState_eq
  · show printlnLine (stateOf rs).file (core (appendRec (stateOf rs).file dt v)) = _
    rw [show (stateOf rs).file = logfileOf rs from rfl,
      appendRec_encode dt v hg hch, printlnLine_logfileOf]
  · rfl

theorem goodRec_of_input {dt v : Str} (h : goodInput (dt, v) = true) {p e : Str} :
    goodRec ⟨dt, v, p, e⟩ = true := by
  simp only [goodInput, goodRec, Bool.and_eq_true] at *
  exact h

theorem newRec_chainOk {rs : List Rec} {dt v : Str}
    (hch : chainOk ZERO_HASH rs = true) :
    chainOk ZERO_HASH (rs ++ [⟨dt, v, tipFrom ZERO_HASH rs,
        sha256 (tipFrom ZERO_HASH rs ++ dt ++ ',' :: v)⟩]) = true := by
  apply chainOk_concat hch rfl
  simp only [payload]
  rw [List.append_assoc]

theorem appendSeq_stateOf :
    ∀ {inputs : List (Str × Str)} {rs : List Rec}, goodInputs inputs = true →
      goodRecs rs = true → chainOk ZERO_HASH rs = true →
      appendSeq (stateOf rs) inputs
        = stateOf (rs ++ chainRecs (tipFrom ZERO_HASH rs) inputs) := by
  intro inputs
  induction inputs with
  | nil => intro rs _ _ _; simp [appendSeq, chainRecs]
  | cons p rest ih =>
      intro rs hgi hg hch
      obtain ⟨dt, v⟩ := p
      simp only [goodInputs, List.all_cons, Bool.and_eq_true] at hgi
      obtain ⟨hp, hrest⟩ := hgi
      simp only [appendSeq]
      rw [appendEntry_stateOf dt v hg hch]
      rw [ih hrest (goodRecs_concat hg (goodRec_of_input hp)) (newRec_chainOk hch)]
      rw [tipFrom_concat]
      simp only [chainRecs, List.append_assoc, List.cons_append, List.nil_append]

theorem goodRecs_chainRecs :
    ∀ {l : List (Str × Str)} {e : Str}, goodInputs l = true →
      goodRecs (chainRecs e l) = true := by
  intro l
  induction l with
  | nil => intro e _; rfl
  | cons p rest ih =>
      intro e hgi
      obtain ⟨dt, v⟩ := p
      simp only [goodInputs, List.all_cons, Bool.and_eq_true] at hgi
      simp only [chainRecs, goodRecs, List.all_cons, Bool.and_eq_true]
      exact ⟨goodRec_of_input hgi.1, ih hgi.2⟩

theorem chainOk_chainRecs :
    ∀ (l : List (Str × Str)) (e : Str), chainOk e (chainRecs e l) = true := by
  intro l
  induction l with
  | nil => intro e; rfl
  | cons p rest ih =>
      intro e
      obtain ⟨dt, v⟩ := p
      simp only [chainRecs, chainOk, Bool.and_eq_true, beq_iff_eq]
      exact ⟨⟨trivial, by simp [payload, List.append_assoc]⟩, ih _⟩

theorem length_chainRecs :
    ∀ (l : List (Str × Str)) (e : Str), (chainRecs e l).length = l.length := by
  intro l
  induction l with
  | nil => intro e; rfl
  | cons p rest ih =>
      intro e
      obtain ⟨dt, v⟩ := p
      simp only [chainRecs, List.length_cons, ih]

end IotLogger

namespace IotLogger

/-! ### Verifier on encoded logs -/

theorem verifyChain_encode {hdr : Str} {rs : List Rec} {stored : Str}
    (hg : goodRecs rs = true) (hch : chainOk ZERO_HASH rs = true) :
    verifyChain (hdr :: rs.map encodeRec) stored
      = if stored ≠ tipFrom ZERO_HASH rs then .finalMismatch
        else .chainOK rs.length := by
  have hscan := scanLines_encode hg hch isHex64_zero 0
  simp only [verifyChain, List.drop_succ_cons, List.drop_zero, hscan, Nat.zero_add]

theorem verifyChain_stateOf {rs : List Rec} {stored : Str} (hg : goodRecs rs = true)
    (hch : chainOk ZERO_HASH rs = true) :
    verifyChain (logfileOf rs) stored =
      if stored ≠ tipFrom ZERO_HASH rs then .finalMismatch
      else .chainOK rs.length :=
  verifyChain_encode hg hch

/-! ### Claim C1 -/

/-- C1 counterexample: the timestamp " a" and the value "1" contain no comma
and no newline, yet one successful append from a fresh reset followed by
verification does not yield Chain OK of length 1: the verifier trims each
stored line, so the leading space of the timestamp is dropped before the
hash is recomputed, and the row is reported tampered (hash mismatch). -/
theorem c1_counterexample :
    (∀ c ∈ (" a").data, c ≠ ',' ∧ c ≠ '\n') ∧
    (∀ c ∈ ("1").data, c ≠ ',' ∧ c ≠ '\n') ∧
    verifyChain (appendSeq resetState [((" a").data, ("1").data)]).file
        (appendSeq resetState [((" a").data, ("1").data)]).anchor
      = .tampered 1 .hashMismatch ∧
    VerifyResult.tampered 1 .hashMismatch ≠ .chainOK 1 := by
  exact ⟨by decide, by decide, by decide, by decide⟩

/-- C1 (amended): chain integrity holds for every sequence of successful
appends from a fresh reset whose timestamps and values contain no comma and
no newline AND whose timestamps do not begin with a whitespace character:
verification then returns Chain OK after processing exactly n rows. -/
theorem c1_chain_integrity {inputs : List (Str × Str)}
    (hgi : goodInputs inputs = true) :
    verifyChain (appendSeq resetState inputs).file
        (appendSeq resetState inputs).anchor = .chainOK inputs.length := by
  have h0 : appendSeq resetState inputs = stateOf (chainRecs ZERO_HASH inputs) := by
    have h1 := @appendSeq_stateOf inputs [] hgi rfl rfl
    simp only [List.nil_append, tipFrom] at h1
    rw [show resetState = stateOf [] from rfl]
    exact h1
  rw [h0,
    show (stateOf (chainRecs ZERO_HASH inputs)).file
      = logfileOf (chainRecs ZERO_HASH inputs) from rfl,
    show (stateOf (chainRecs ZERO_HASH inputs)).anchor
      = tipFrom ZERO_HASH (chainRecs ZERO_HASH inputs) from rfl,
    verifyChain_stateOf (goodRecs_chainRecs hgi) (chainOk_chainRecs inputs ZERO_HASH),
    if_neg (fun hx => hx rfl), length_chainRecs]

/-- C1 witness: the spec §8 concrete scenario, two appends, verified length 2. -/
theorem c1_chain_integrity_witness :
    goodInputs [(("2024-01-01 00:00:00").data, ("20.0").data),
                (("2024-01-01 00:00:05").data, ("20.5").data)] = true ∧
    verifyChain (appendSeq resetState
          [(("2024-01-01 00:00:00").data, ("20.0").data),
           (("2024-01-01 00:00:05").data, ("20.5").data)]).file
        (appendSeq resetState
          [(("2024-01-01 00:00:00").data, ("20.0").data),
           (("2024-01-01 00:00:05").data, ("20.5").data)]).anchor
      = .chainOK 2 :=
  ⟨by decide, c1_chain_integrity (by decide)⟩

/-! ### Claim C2 -/

/-- C2: for every log whose records are internally self-consistent (genesis
link, chained links, self-committing entry hashes) but whose computed tip
differs from the stored trust anchor, the verifier scans cleanly and reports
exactly the final-hash (anchor) mismatch — the only case that detects a
wholesale-substituted or rolled-back log.  The header line is arbitrary. -/
theorem c2_anchor_defeats_replacement {hdr : Str} {rs : List Rec} {stored : Str}
    (hg : goodRecs rs = true) (hch : chainOk ZERO_HASH rs = true)
    (hne : stored ≠ tipFrom ZERO_HASH rs) :
    verifyChain (hdr :: rs.map encodeRec) stored = .finalMismatch := by
  rw [verifyChain_encode hg hch, if_pos hne]

/-- C2 witness: a one-record self-consistent chain substituted under a stale
ZERO_HASH anchor is reported as the final-hash mismatch. -/
theorem c2_anchor_defeats_replacement_witness :
    goodRecs [⟨("t").data, ("1").data, ZERO_HASH,
        sha256 (ZERO_HASH ++ ("t").data ++ ',' :: ("1").data)⟩] = true ∧
    chainOk ZERO_HASH [⟨("t").data, ("1").data, ZERO_HASH,
        sha256 (ZERO_HASH ++ ("t").data ++ ',' :: ("1").data)⟩] = true ∧
    ZERO_HASH ≠ tipFrom ZERO_HASH [⟨("t").data, ("1").data, ZERO_HASH,
        sha256 (ZERO_HASH ++ ("t").data ++ ',' :: ("1").data)⟩] ∧
    verifyChain ((HEADER ++ ['\r']) :: List.map encodeRec
        [⟨("t").data, ("1").data, ZERO_HASH,
          sha256 (ZERO_HASH ++ ("t").data ++ ',' :: ("1").data)⟩]) ZERO_HASH
      = .finalMismatch :=
  ⟨by decide, by decide, by decide,
    c2_anchor_defeats_replacement (by decide) (by decide) (by decide)⟩

/-! ### Claim C3 -/

/-- C3 counterexample: the state left by an append interrupted between the
row write and the anchor update (file ahead of anchor) receives from the
verifier exactly the same verdict — the final-hash mismatch used to report
tampering ("SD card cloned or old version inserted!") — as a wholesale
forged substitution; the code has no distinct, recoverable AnchorStale
outcome. -/
theorem c3_counterexample :
    verifyChain (appendRowOnly resetState ("t1").data ("7.5").data).file
        (appendRowOnly resetState ("t1").data ("7.5").data).anchor
      = .finalMismatch ∧
    verifyChain (logfileOf [⟨("t9").data, ("9.9").data, ZERO_HASH,
          sha256 (ZERO_HASH ++ ("t9").data ++ ',' :: ("9.9").data)⟩]) ZERO_HASH
      = .finalMismatch :=
  ⟨by decide, by decide⟩

/-- C3 (amended): when an append on a consistent state is interrupted after
step 3 (row persisted) and before step 4 (anchor update), verification
reports the single final-hash mismatch verdict — the same one used for
tampering — rather than any distinct AnchorStale condition.  Hypothesis
`hne`: the new entry hash differs from the old anchor (the append moved the
tip). -/
theorem c3_anchor_stale_not_distinguished {rs : List Rec} {dt v : Str}
    (hg : goodRecs rs = true) (hch : chainOk ZERO_HASH rs = true)
    (hgd : goodDt dt = true) (hcv : cleanField v = true)
    (hne : tipFrom ZERO_HASH rs
      ≠ sha256 (tipFrom ZERO_HASH rs ++ dt ++ ',' :: v)) :
    verifyChain (appendRowOnly (stateOf rs) dt v).file
        (appendRowOnly (stateOf rs) dt v).anchor = .finalMismatch := by
  rw [appendRowOnly_stateOf dt v hg hch]
  have hgr : goodRec ⟨dt, v, tipFrom ZERO_HASH rs,
      sha256 (tipFrom ZERO_HASH rs ++ dt ++ ',' :: v)⟩ = true := by
    simp only [goodRec, Bool.and_eq_true]
    exact ⟨hgd, hcv⟩
  show verifyChain (logfileOf (rs ++ [⟨dt, v, tipFrom ZERO_HASH rs,
      sha256 (tipFrom ZERO_HASH rs ++ dt ++ ',' :: v)⟩])) (tipFrom ZERO_HASH rs)
    = .finalMismatch
  rw [verifyChain_stateOf (goodRecs_concat hg hgr) (newRec_chainOk hch),
    tipFrom_concat]
  rw [if_pos hne]

/-- C3 witness: first append interrupted before the anchor update on a fresh
reset state. -/
theorem c3_anchor_stale_not_distinguished_witness :
    goodDt ("t1").data = true ∧ cleanField ("7.5").data = true ∧
    tipFrom ZERO_HASH ([] : List Rec)
      ≠ sha256 (tipFrom ZERO_HASH ([] : List Rec) ++ ("t1").data
          ++ ',' :: ("7.5").data) ∧
    verifyChain (appendRowOnly (stateOf []) ("t1").data ("7.5").data).file
        (appendRowOnly (stateOf []) ("t1").data ("7.5").data).anchor
      = .finalMismatch :=
  ⟨by decide, by decide, by decide,
    c3_anchor_stale_not_distinguished (by decide) (by decide) (by decide)
      (by decide) (by decide)⟩

/-! ### Claim C6 -/

/-- C6: a log with zero records (header line only, header content arbitrary)
has currentTip = ZERO_HASH, and the record built by the first append on such
a log carries prevHash = ZERO_HASH. -/
theorem c6_genesis (hdr dt v : Str) :
    currentTip [hdr] = ZERO_HASH ∧ (appendRec [hdr] dt v).prev = ZERO_HASH :=
  ⟨rfl, rfl⟩

/-! ### Claim C7 -/

/-- C7 counterexample: a value containing the delimiter is not rejected:
the append claims success ("Logged:") and the persisted row embeds the
comma, so the stored line has four commas instead of three. -/
theorem c7_counterexample :
    (appendEntry true resetState ("t").data ("2,0").data).2 = true ∧
    ((appendEntry true resetState ("t").data ("2,0").data).1.file.getLastD
        []).count ',' = 4 :=
  ⟨by decide, by decide⟩

/-- C7 (amended): the code performs no encode-time validation whatsoever:
for every state and all timestamp/value strings — delimiter characters
included — append claims success and persists the raw row built verbatim
from them. -/
theorem c7_no_encode_validation (st : LoggerState) (dt v : Str) :
    (appendEntry true st dt v).2 = true ∧
    (appendEntry true st dt v).1.file
      = st.file ++ [dt ++ ',' :: v ++ ',' :: currentTip st.file ++ ','
          :: sha256 (currentTip st.file ++ dt ++ ',' :: v) ++ ['\r']] :=
  ⟨rfl, rfl⟩

/-! ### Claim C8 -/

/-- C8: when the data file cannot be opened for appending, appendEntry
returns before writing: it does not claim success, the file (all previously
committed rows) is unchanged, and the trust anchor is unchanged — the anchor
update is sequenced strictly after the row write. -/
theorem c8_append_io_failure (st : LoggerState) (dt v : Str) :
    appendEntry false st dt v = (st, false) := rfl

/-! ### Claim C9 -/

/-- C9: the genesis constant ZERO_HASH has exactly the length of the
lower-case hex rendering of a sha256 digest (64 characters), for every
input string. -/
theorem c9_zero_hash_length (s : Str) : ZERO_HASH.length = (sha256 s).length := by
  rw [sha256_length]
  rfl

/-! ### Claim C10 -/

/-- C10: verifyChain reads the first line (header) and discards it without
inspection, so two files that differ only in their header line verify
identically under the same stored anchor. -/
theorem c10_header_not_inspected (h1 h2 : Str) (rest : List Str) (stored : Str) :
    verifyChain (h1 :: rest) stored = verifyChain (h2 :: rest) stored := rfl

end IotLogger

namespace IotLogger

/-! ### Claim C4 -/

/-- C4 counterexample: the row "a,b,c,d,e" splits at more than three
delimiters, yet it is not rejected as malformed: decode succeeds, the extra
comma being absorbed into the fourth field, and the verifier reports a
prev-hash mismatch at that position — not the bad-CSV (malformed row)
verdict the claim requires. -/
theorem c4_counterexample :
    parseRow ("a,b,c,d,e").data
      = some (("a").data, ("b").data, ("c").data, ("d,e").data) ∧
    verifyChain [HEADER ++ ['\r'], ("a,b,c,d,e").data] ZERO_HASH
      = .tampered 1 .prevMismatch ∧
    VerifyResult.tampered 1 .prevMismatch ≠ .tampered 1 .badCSV :=
  ⟨by decide, by decide, by decide⟩

/-- C4 (amended): decode fails exactly for rows with fewer than three
delimiters; such a row (of trimmed length at least 5, so it is not skipped
as blank) appended after any internally consistent log is reported as
tampered with the bad-CSV (malformed row) reason at its position.  Rows
with more than three delimiters are not rejected by decode. -/
theorem c4_malformed_row {hdr : Str} {rs : List Rec} {bad : Str} {stored : Str}
    (hg : goodRecs rs = true) (hch : chainOk ZERO_HASH rs = true)
    (hlen : ¬(trim bad).length < 5) (hcc : (trim bad).count ',' < 3) :
    verifyChain (hdr :: (rs.map encodeRec ++ [bad])) stored
      = .tampered (rs.length + 1) .badCSV := by
  have hscan := scanLines_encode hg hch isHex64_zero 0
  have hpr : parseRow (trim bad) = none := parseRow_eq_none_iff.mpr hcc
  simp only [verifyChain, List.drop_succ_cons, List.drop_zero]
  rw [scanLines_append, hscan]
  simp only [scanLines, checkLine, hpr, if_neg hlen, Nat.zero_add]

/-- C4 witness: a six-character commaless row after an empty chain is
reported bad CSV at position 1. -/
theorem c4_malformed_row_witness :
    goodRecs ([] : List Rec) = true ∧ chainOk ZERO_HASH ([] : List Rec) = true ∧
    ¬(trim ("abcdef").data).length < 5 ∧ (trim ("abcdef").data).count ',' < 3 ∧
    verifyChain ((HEADER ++ ['\r']) :: (List.map encodeRec ([] : List Rec)
        ++ [("abcdef").data])) ZERO_HASH
      = .tampered 1 .badCSV :=
  ⟨by decide, by decide, by decide, by decide,
    c4_malformed_row (by decide) (by decide) (by decide) (by decide)⟩

end IotLogger

namespace IotLogger

/-! ### Single-character tampering: basic helpers -/

theorem ne_of_getElem_ne {l1 l2 : Str} {j : Nat} (h1 : j < l1.length)
    (h2 : j < l2.length) (hne : l1[j] ≠ l2[j]) : l1 ≠ l2 := by
  intro he
  subst he
  exact hne rfl

theorem notMem_set {x : Char} {l : Str} {j : Nat} {a : Char} (hl : x ∉ l)
    (ha : a ≠ x) : x ∉ l.set j a := by
  intro hm
  rcases List.mem_or_eq_of_mem_set hm with h | h
  · exact hl h
  · exact ha h.symm

theorem set_ne_self {l : Str} {j : Nat} {a : Char} (hj : j < l.length)
    (ha : a ≠ l.get ⟨j, hj⟩) : l.set j a ≠ l := by
  apply @ne_of_getElem_ne (l.set j a) l j (by simpa using hj) hj
  rw [List.getElem_set_self]
  intro h
  exact ha (h.trans (List.get_eq_getElem l ⟨j, hj⟩).symm)

theorem trimRight_append_ws {w : Char} (hw : isSpaceChar w = true) (y : Str) :
    trimRight (y ++ [w]) = trimRight y := by
  have h1 : (y ++ [w]).reverse = w :: y.reverse := by simp
  rw [trimRight, h1, List.dropWhile_cons, if_pos hw, trimRight]

theorem trim_append_cr (y : Str) : trim (y ++ ['\r']) = trim y := by
  rw [trim, trim, trimLeft, trimLeft, List.dropWhile_append]
  by_cases h : (y.dropWhile isSpaceChar).isEmpty
  · rw [if_pos h]
    have h2 : List.dropWhile isSpaceChar ['\r'] = [] := rfl
    rw [h2]
    rw [List.isEmpty_iff] at h
    rw [h]
  · rw [if_neg h]
    exact trimRight_append_ws (by decide) _

theorem countP_nonWs_dropWhile (s : Str) :
    (s.dropWhile isSpaceChar).countP (fun c => !isSpaceChar c)
      = s.countP (fun c => !isSpaceChar c) := by
  induction s with
  | nil => rfl
  | cons c rest ih =>
      by_cases h : isSpaceChar c
      · simp [List.dropWhile_cons, h, List.countP_cons, ih]
      · simp [List.dropWhile_cons, h]

theorem countP_nonWs_reverse (s : Str) :
    s.reverse.countP (fun c => !isSpaceChar c)
      = s.countP (fun c => !isSpaceChar c) := by
  induction s with
  | nil => rfl
  | cons c rest ih =>
      simp only [List.reverse_cons, List.countP_append, List.countP_cons, ih,
        List.countP_nil]
      omega

theorem countP_nonWs_le_trim (s : Str) :
    s.countP (fun c => !isSpaceChar c) ≤ (trim s).length := by
  rw [trim, trimLeft, trimRight]
  have h1 := countP_nonWs_dropWhile s
  have h2 := countP_nonWs_reverse (s.dropWhile isSpaceChar)
  have h3 := countP_nonWs_dropWhile (s.dropWhile isSpaceChar).reverse
  have h4 := @List.countP_le_length Char (fun c => !isSpaceChar c) ((s.dropWhile isSpaceChar).reverse.dropWhile isSpaceChar)
  simp only [List.length_reverse]
  omega

theorem trimRight_front (s : Str) : trimRight s <+: s := by
  rw [trimRight]
  have h1 : s.reverse.dropWhile isSpaceChar <:+ s.reverse :=
    List.dropWhile_suffix _
  have h2 : (s.reverse.dropWhile isSpaceChar).reverse <+: s.reverse.reverse :=
    List.reverse_prefix.mpr h1
  simpa using h2

theorem headNotWs_take {s : Str} {k : Nat} (hk : 0 < k) :
    headNotWs (s.take k) = headNotWs s := by
  cases s with
  | nil => rw [List.take_nil]
  | cons c rest =>
      cases k with
      | zero => omega
      | succ n => rfl

theorem headNotWs_rev_mk {a b c e : Str} (he : e ≠ [])
    (hws : ∀ x ∈ e, isSpaceChar x = false) :
    headNotWs (a ++ ',' :: (b ++ ',' :: (c ++ ',' :: e))).reverse = true := by
  rw [headNotWs_rev_append (by simp)]
  rw [← List.singleton_append, headNotWs_rev_append (by simp)]
  rw [headNotWs_rev_append (by simp)]
  rw [← List.singleton_append, headNotWs_rev_append (by simp)]
  rw [headNotWs_rev_append (by simp)]
  rw [← List.singleton_append, headNotWs_rev_append he]
  apply headNotWs_of_noWs
  intro x hx
  exact hws x (by simpa using hx)

theorem trim_mk {a b c e : Str}
    (hhead : headNotWs (a ++ ',' :: (b ++ ',' :: (c ++ ',' :: e))) = true)
    (he : e ≠ []) (hws : ∀ x ∈ e, isSpaceChar x = false) :
    trim (a ++ ',' :: (b ++ ',' :: (c ++ ',' :: e)))
      = a ++ ',' :: (b ++ ',' :: (c ++ ',' :: e)) :=
  trim_eq_self hhead (headNotWs_rev_mk he hws)

theorem checkLine_of_trim {expected l a b c e : Str}
    (htrim : trim l = a ++ ',' :: (b ++ ',' :: (c ++ ',' :: e)))
    (ha : ',' ∉ a) (hb : ',' ∉ b) (hc : ',' ∉ c)
    (hlen : ¬(a ++ ',' :: (b ++ ',' :: (c ++ ',' :: e))).length < 5) :
    checkLine expected l
      = if c ≠ expected then .fail .prevMismatch
        else if sha256 (c ++ a ++ ',' :: b) ≠ e then .fail .hashMismatch
        else .pass e := by
  simp only [checkLine, htrim]
  rw [if_neg hlen]
  simp only [parseRow_encode ha hb hc]

end IotLogger

namespace IotLogger

/-! ### Single-character tampering: structural lemmas -/

theorem core_assoc2 (r : Rec) :
    core r = (r.dt ++ ',' :: r.temp) ++ ',' :: (r.prev ++ ',' :: r.entry) := by
  simp [core]

theorem sha256_ne_of_comma_mem {x y : Str} (hy : ',' ∈ y) : sha256 x ≠ y := by
  intro h
  exact isHexChar_ne_comma (sha256_all_hex x ',' (h ▸ hy)) rfl

theorem ne_of_length_ne {x y : Str} (h : x.length ≠ y.length) : x ≠ y := by
  intro he
  exact h (by rw [he])

theorem headNotWs_field_append {d Z : Str} (hd : headNotWs d = true) :
    headNotWs (d ++ ',' :: Z) = true := by
  cases d with
  | nil => rfl
  | cons c rest => exact hd

theorem dropWhile_ws_append_comma (x y : Str) :
    (x ++ ',' :: y).dropWhile isSpaceChar = x.dropWhile isSpaceChar ++ ',' :: y := by
  rw [List.dropWhile_append]
  by_cases h : (x.dropWhile isSpaceChar).isEmpty
  · rw [if_pos h]
    rw [List.isEmpty_iff] at h
    rw [h, List.nil_append]
    rfl
  · rw [if_neg h]

theorem headNotWs_of_getElem {y : Str}
    (h : ∀ (hh : 0 < y.length), isSpaceChar (y.get ⟨0, hh⟩) = false) :
    headNotWs y = true := by
  cases y with
  | nil => rfl
  | cons c rest => simpa [headNotWs] using h (by simp)

theorem headNotWs_rev_getElem {x : Str} (hne : x ≠ [])
    (h : ∀ (hh : x.length - 1 < x.length),
        isSpaceChar (x.get ⟨x.length - 1, hh⟩) = false) :
    headNotWs x.reverse = true := by
  have hlen : 0 < x.length := List.length_pos.mpr hne
  apply headNotWs_of_getElem
  intro hh
  rw [List.get_eq_getElem, List.getElem_reverse]
  simpa using h (by omega)

theorem headNotWs_rev_mk2 {a b c e : Str} (he : e ≠ [])
    (hlast : headNotWs e.reverse = true) :
    headNotWs (a ++ ',' :: (b ++ ',' :: (c ++ ',' :: e))).reverse = true := by
  rw [headNotWs_rev_append (by simp)]
  rw [← List.singleton_append, headNotWs_rev_append (by simp)]
  rw [headNotWs_rev_append (by simp)]
  rw [← List.singleton_append, headNotWs_rev_append (by simp)]
  rw [headNotWs_rev_append (by simp)]
  rw [← List.singleton_append, headNotWs_rev_append he]
  exact hlast

theorem trim_mk2 {a b c e : Str}
    (hhead : headNotWs (a ++ ',' :: (b ++ ',' :: (c ++ ',' :: e))) = true)
    (he : e ≠ []) (hlast : headNotWs e.reverse = true) :
    trim (a ++ ',' :: (b ++ ',' :: (c ++ ',' :: e)))
      = a ++ ',' :: (b ++ ',' :: (c ++ ',' :: e)) :=
  trim_eq_self hhead (headNotWs_rev_mk2 he hlast)

theorem getElem?_cons_of_pos {α : Type} (a : α) (l : List α) {n : Nat}
    (h : 0 < n) : (a :: l)[n]? = l[n - 1]? := by
  cases n with
  | zero => omega
  | succ m => simp [List.getElem?_cons_succ]

theorem set_cons_of_pos {α : Type} (a : α) (l : List α) {n : Nat} (x : α)
    (h : 0 < n) : (a :: l).set n x = a :: l.set (n - 1) x := by
  cases n with
  | zero => omega
  | succ m => simp [List.set_cons_succ]

/-! #### Position lookup inside an encoded row -/

theorem core_get?_r1 {r : Rec} {i : Nat} (h : i < r.dt.length) :
    (core r)[i]? = r.dt[i]? := by
  rw [core_assoc, List.getElem?_append_left h]

theorem core_get?_r2 {r : Rec} {i : Nat} (h1 : r.dt.length + 1 ≤ i)
    (h2 : i < r.dt.length + 1 + r.temp.length) :
    (core r)[i]? = r.temp[i - r.dt.length - 1]? := by
  rw [core_assoc2,
    List.getElem?_append_left (by simp only [List.length_append, List.length_cons]; omega),
    List.getElem?_append_right (by omega)]
  rw [getElem?_cons_of_pos _ _ (by omega)]

theorem core_get?_r3 {r : Rec} {i : Nat}
    (h1 : r.dt.length + r.temp.length + 2 ≤ i)
    (h2 : i < r.dt.length + r.temp.length + 2 + r.prev.length) :
    (core r)[i]? = r.prev[i - r.dt.length - r.temp.length - 2]? := by
  rw [core_concat,
    List.getElem?_append_left (by simp only [List.length_append, List.length_cons]; omega),
    List.getElem?_append_right (by simp only [List.length_append, List.length_cons]; omega)]
  rw [getElem?_cons_of_pos _ _
    (by simp only [List.length_append, List.length_cons]; omega)]
  have h3 : i - (r.dt ++ ',' :: r.temp).length - 1
      = i - r.dt.length - r.temp.length - 2 := by
    simp only [List.length_append, List.length_cons]
    omega
  rw [h3]

theorem core_get?_r4 {r : Rec} {i : Nat}
    (h1 : r.dt.length + r.temp.length + r.prev.length + 3 ≤ i) :
    (core r)[i]? = r.entry[i - r.dt.length - r.temp.length - r.prev.length - 3]? := by
  rw [core_concat,
    List.getElem?_append_right (by simp only [List.length_append, List.length_cons]; omega)]
  rw [getElem?_cons_of_pos _ _
    (by simp only [List.length_append, List.length_cons]; omega)]
  have h3 : i - (r.dt ++ ',' :: r.temp ++ ',' :: r.prev).length - 1
      = i - r.dt.length - r.temp.length - r.prev.length - 3 := by
    simp only [List.length_append, List.length_cons]
    omega
  rw [h3]

theorem core_get_eq_of_get? {r : Rec} {i : Nat} (hi : i < (core r).length)
    {f : Str} {j : Nat} (hj : j < f.length) (h : (core r)[i]? = f[j]?) :
    (core r).get ⟨i, hi⟩ = f.get ⟨j, hj⟩ := by
  rw [List.get_eq_getElem, List.get_eq_getElem]
  have ha := List.getElem?_eq_getElem hi
  have hb := List.getElem?_eq_getElem hj
  rw [ha, hb] at h
  exact Option.some.inj h

/-! #### set decomposition by field region -/

theorem set_core_r1 {r : Rec} {i : Nat} {c : Char} (h : i < r.dt.length) :
    (core r).set i c
      = r.dt.set i c ++ ',' :: (r.temp ++ ',' :: (r.prev ++ ',' :: r.entry)) := by
  rw [core_assoc, List.set_append, if_pos h]

theorem set_core_r2 {r : Rec} {i : Nat} {c : Char} (h1 : r.dt.length + 1 ≤ i)
    (h2 : i < r.dt.length + 1 + r.temp.length) :
    (core r).set i c
      = r.dt ++ ',' :: (r.temp.set (i - r.dt.length - 1) c
          ++ ',' :: (r.prev ++ ',' :: r.entry)) := by
  rw [core_assoc2, List.set_append,
    if_pos (by simp only [List.length_append, List.length_cons]; omega),
    List.set_append, if_neg (by omega)]
  rw [set_cons_of_pos _ _ _ (by omega)]
  simp [List.append_assoc]

theorem set_core_r3 {r : Rec} {i : Nat} {c : Char}
    (h1 : r.dt.length + r.temp.length + 2 ≤ i)
    (h2 : i < r.dt.length + r.temp.length + 2 + r.prev.length) :
    (core r).set i c
      = r.dt ++ ',' :: (r.temp ++ ',' :: (r.prev.set
          (i - r.dt.length - r.temp.length - 2) c ++ ',' :: r.entry)) := by
  rw [core_concat, List.set_append,
    if_pos (by simp only [List.length_append, List.length_cons]; omega),
    List.set_append,
    if_neg (by simp only [List.length_append, List.length_cons]; omega)]
  rw [set_cons_of_pos _ _ _
    (by simp only [List.length_append, List.length_cons]; omega)]
  have h3 : i - (r.dt ++ ',' :: r.temp).length - 1
      = i - r.dt.length - r.temp.length - 2 := by
    simp only [List.length_append, List.length_cons]
    omega
  rw [h3]
  simp [List.append_assoc]

theorem set_core_r4 {r : Rec} {i : Nat} {c : Char}
    (h1 : r.dt.length + r.temp.length + r.prev.length + 3 ≤ i) :
    (core r).set i c
      = r.dt ++ ',' :: (r.temp ++ ',' :: (r.prev ++ ',' :: r.entry.set
          (i - r.dt.length - r.temp.length - r.prev.length - 3) c)) := by
  rw [core_concat, List.set_append,
    if_neg (by simp only [List.length_append, List.length_cons]; omega)]
  rw [set_cons_of_pos _ _ _
    (by simp only [List.length_append, List.length_cons]; omega)]
  have h3 : i - (r.dt ++ ',' :: r.temp ++ ',' :: r.prev).length - 1
      = i - r.dt.length - r.temp.length - r.prev.length - 3 := by
    simp only [List.length_append, List.length_cons]
    omega
  rw [h3]
  simp [List.append_assoc]

end IotLogger

namespace IotLogger

/-! ### Single-character tampering: the timestamp region -/

theorem checkA_r1 {r : Rec} (hg : goodRec r = true) (hphex : isHex64 r.prev = true)
    (hent : r.entry = sha256 (r.prev ++ payload r)) {i : Nat} {c : Char}
    (h : i < r.dt.length) (hc2 : c ≠ r.dt.get ⟨i, h⟩) (hcnl : c ≠ '\n') :
    (∃ reason, checkLine r.prev ((core r).set i c ++ ['\r']) = .fail reason)
    ∨ ∃ pl2, pl2 ≠ payload r ∧ sha256 (r.prev ++ pl2) = r.entry := by
  obtain ⟨hdc, hdn, hdh, htc, htn⟩ := goodRec_parts hg
  have hpc := isHex64_comma_notMem hphex
  have hehex : isHex64 r.entry = true := by rw [hent]; exact isHex64_sha256 _
  have hene := isHex64_ne_nil hehex
  have heno := isHex64_noWs hehex
  have hplen := isHex64_length hphex
  have helen := isHex64_length hehex
  have hdne : r.dt ≠ [] := by
    intro hh
    rw [hh] at h
    simp at h
  have hlaste : headNotWs r.entry.reverse = true :=
    headNotWs_of_noWs (fun x hx => heno x (by simpa using hx))
  rw [set_core_r1 h]
  by_cases hcw : c = ','
  · subst hcw
    rw [List.set_eq_take_cons_drop ',' h]
    have hX : (r.dt.take i ++ ',' :: r.dt.drop (i + 1))
          ++ ',' :: (r.temp ++ ',' :: (r.prev ++ ',' :: r.entry))
        = r.dt.take i ++ ',' :: (r.dt.drop (i + 1)
          ++ ',' :: (r.temp ++ ',' :: (r.prev ++ ',' :: r.entry))) := by
      simp [List.append_assoc]
    rw [hX]
    have hhead1 : headNotWs (r.dt.take i) = true := by
      cases i with
      | zero => rfl
      | succ n =>
          rw [headNotWs_take (Nat.succ_pos n)]
          exact hdh
    have hlast1 : headNotWs (r.prev ++ ',' :: r.entry).reverse = true := by
      rw [headNotWs_rev_append (by simp), ← List.singleton_append,
        headNotWs_rev_append hene]
      exact hlaste
    have htr : trim ((r.dt.take i ++ ',' :: (r.dt.drop (i + 1)
          ++ ',' :: (r.temp ++ ',' :: (r.prev ++ ',' :: r.entry)))) ++ ['\r'])
        = r.dt.take i ++ ',' :: (r.dt.drop (i + 1)
          ++ ',' :: (r.temp ++ ',' :: (r.prev ++ ',' :: r.entry))) := by
      rw [trim_append_cr]
      exact trim_mk2 (headNotWs_field_append hhead1) (by simp) hlast1
    have htake : ',' ∉ r.dt.take i :=
      fun hm => hdc (List.Sublist.mem hm (List.take_sublist i r.dt))
    have hdrop : ',' ∉ r.dt.drop (i + 1) :=
      fun hm => hdc (List.Sublist.mem hm (List.drop_sublist (i + 1) r.dt))
    have hlen5 : ¬(r.dt.take i ++ ',' :: (r.dt.drop (i + 1)
        ++ ',' :: (r.temp ++ ',' :: (r.prev ++ ',' :: r.entry)))).length < 5 := by
      simp only [List.length_append, List.length_cons]
      omega
    rw [checkLine_of_trim htr htake hdrop htc hlen5]
    by_cases hq : r.temp ≠ r.prev
    · rw [if_pos hq]
      exact Or.inl ⟨_, rfl⟩
    · rw [if_neg hq, if_pos (sha256_ne_of_comma_mem (by simp))]
      exact Or.inl ⟨_, rfl⟩
  · by_cases hws : isSpaceChar c = true ∧ i = 0
    · obtain ⟨hwsc, hi0⟩ := hws
      subst hi0
      obtain ⟨d0, dtl, hdt⟩ := List.exists_cons_of_ne_nil hdne
      rw [hdt, List.set_cons_zero]
      have hdtl : ',' ∉ dtl := by
        rw [hdt] at hdc
        exact fun hm => hdc (List.mem_cons_of_mem d0 hm)
      have hdt2 : ',' ∉ dtl.dropWhile isSpaceChar :=
        fun hm => hdtl (List.Sublist.mem hm (List.dropWhile_sublist _))
      have htl : trimLeft ((c :: dtl)
            ++ ',' :: (r.temp ++ ',' :: (r.prev ++ ',' :: r.entry)))
          = dtl.dropWhile isSpaceChar
            ++ ',' :: (r.temp ++ ',' :: (r.prev ++ ',' :: r.entry)) := by
        rw [trimLeft, dropWhile_ws_append_comma, List.dropWhile_cons, if_pos hwsc]
      have htr : trim (((c :: dtl)
            ++ ',' :: (r.temp ++ ',' :: (r.prev ++ ',' :: r.entry))) ++ ['\r'])
          = dtl.dropWhile isSpaceChar
            ++ ',' :: (r.temp ++ ',' :: (r.prev ++ ',' :: r.entry)) := by
        rw [trim_append_cr, trim, htl]
        exact trimRight_eq_self (headNotWs_rev_mk2 hene hlaste)
      have hlen5 : ¬(dtl.dropWhile isSpaceChar
          ++ ',' :: (r.temp ++ ',' :: (r.prev ++ ',' :: r.entry))).length < 5 := by
        simp only [List.length_append, List.length_cons]
        omega
      rw [checkLine_of_trim htr hdt2 htc hpc hlen5, if_neg (fun hx => hx rfl)]
      by_cases hh : sha256 (r.prev ++ (dtl.dropWhile isSpaceChar)
          ++ ',' :: r.temp) ≠ r.entry
      · rw [if_pos hh]
        exact Or.inl ⟨_, rfl⟩
      · rw [if_neg hh]
        push_neg at hh
        refine Or.inr ⟨dtl.dropWhile isSpaceChar ++ ',' :: r.temp, ?_, ?_⟩
        · apply ne_of_length_ne
          have hd1 : (dtl.dropWhile isSpaceChar).length ≤ dtl.length :=
            List.Sublist.length_le (List.dropWhile_sublist _)
          have hd2 : r.dt.length = dtl.length + 1 := by rw [hdt]; rfl
          simp only [payload, List.length_append, List.length_cons]
          omega
        · rw [← List.append_assoc]
          exact hh
    · push_neg at hws
      have hc3 : c ≠ ',' := hcw
      have hhead1 : headNotWs (r.dt.set i c) = true := by
        cases i with
        | zero =>
            obtain ⟨d0, dtl, hdt⟩ := List.exists_cons_of_ne_nil hdne
            rw [hdt, List.set_cons_zero]
            simp only [headNotWs]
            cases hcc : isSpaceChar c with
            | false => rfl
            | true => exact absurd hcc (by simpa using hws hcc)
        | succ n =>
            obtain ⟨d0, dtl, hdt⟩ := List.exists_cons_of_ne_nil hdne
            rw [hdt, List.set_cons_succ]
            rw [hdt] at hdh
            exact hdh
      have hdset : ',' ∉ r.dt.set i c := notMem_set hdc hc3
      have htr : trim ((r.dt.set i c
            ++ ',' :: (r.temp ++ ',' :: (r.prev ++ ',' :: r.entry))) ++ ['\r'])
          = r.dt.set i c
            ++ ',' :: (r.temp ++ ',' :: (r.prev ++ ',' :: r.entry)) := by
        rw [trim_append_cr]
        exact trim_mk2 (headNotWs_field_append hhead1) hene hlaste
      have hlen5 : ¬(r.dt.set i c
          ++ ',' :: (r.temp ++ ',' :: (r.prev ++ ',' :: r.entry))).length < 5 := by
        simp only [List.length_append, List.length_cons]
        omega
      rw [checkLine_of_trim htr hdset htc hpc hlen5, if_neg (fun hx => hx rfl)]
      by_cases hh : sha256 (r.prev ++ r.dt.set i c ++ ',' :: r.temp) ≠ r.entry
      · rw [if_pos hh]
        exact Or.inl ⟨_, rfl⟩
      · rw [if_neg hh]
        push_neg at hh
        refine Or.inr ⟨r.dt.set i c ++ ',' :: r.temp, ?_, ?_⟩
        · intro he
          exact set_ne_self h hc2 (List.append_cancel_right he)
        · rw [← List.append_assoc]
          exact hh

end IotLogger

namespace IotLogger

/-! ### Single-character tampering: the value, prevHash and entryHash regions -/

theorem headNotWs_rev_set_of_lt {x : Str} {j : Nat} {a : Char}
    (hx : ∀ c ∈ x, isSpaceChar c = false) (hj : j + 1 < x.length) :
    headNotWs (x.set j a).reverse = true := by
  rw [List.set_eq_take_cons_drop a (by omega)]
  rw [headNotWs_rev_append (by simp)]
  rw [← List.singleton_append,
    headNotWs_rev_append (by
      intro hh
      have := congrArg List.length hh
      simp at this
      omega)]
  apply headNotWs_of_noWs
  intro z hz
  have hz2 : z ∈ x.drop (j + 1) := by simpa using hz
  exact hx z (List.Sublist.mem hz2 (List.drop_sublist _ _))

theorem checkA_r2 {r : Rec} (hg : goodRec r = true) (hphex : isHex64 r.prev = true)
    (hent : r.entry = sha256 (r.prev ++ payload r)) {i : Nat} {c : Char}
    (h1 : r.dt.length + 1 ≤ i) (h2 : i < r.dt.length + 1 + r.temp.length)
    (hj : i - r.dt.length - 1 < r.temp.length)
    (hc2 : c ≠ r.temp.get ⟨i - r.dt.length - 1, hj⟩) (hcnl : c ≠ '\n') :
    (∃ reason, checkLine r.prev ((core r).set i c ++ ['\r']) = .fail reason)
    ∨ ∃ pl2, pl2 ≠ payload r ∧ sha256 (r.prev ++ pl2) = r.entry := by
  obtain ⟨hdc, hdn, hdh, htc, htn⟩ := goodRec_parts hg
  have hpc := isHex64_comma_notMem hphex
  have hehex : isHex64 r.entry = true := by rw [hent]; exact isHex64_sha256 _
  have hene := isHex64_ne_nil hehex
  have heno := isHex64_noWs hehex
  have hplen := isHex64_length hphex
  have helen := isHex64_length hehex
  have hlaste : headNotWs r.entry.reverse = true :=
    headNotWs_of_noWs (fun x hx => heno x (by simpa using hx))
  rw [set_core_r2 h1 h2]
  by_cases hcw : c = ','
  · subst hcw
    rw [List.set_eq_take_cons_drop ',' hj]
    have hX : r.dt ++ ',' :: ((r.temp.take (i - r.dt.length - 1)
          ++ ',' :: r.temp.drop (i - r.dt.length - 1 + 1))
          ++ ',' :: (r.prev ++ ',' :: r.entry))
        = r.dt ++ ',' :: (r.temp.take (i - r.dt.length - 1)
          ++ ',' :: (r.temp.drop (i - r.dt.length - 1 + 1)
          ++ ',' :: (r.prev ++ ',' :: r.entry))) := by
      simp [List.append_assoc]
    rw [hX]
    have hlast1 : headNotWs (r.prev ++ ',' :: r.entry).reverse = true := by
      rw [headNotWs_rev_append (by simp), ← List.singleton_append,
        headNotWs_rev_append hene]
      exact hlaste
    have htake : ',' ∉ r.temp.take (i - r.dt.length - 1) :=
      fun hm => htc (List.Sublist.mem hm (List.take_sublist _ r.temp))
    have hdrop : ',' ∉ r.temp.drop (i - r.dt.length - 1 + 1) :=
      fun hm => htc (List.Sublist.mem hm (List.drop_sublist _ r.temp))
    have htr : trim ((r.dt ++ ',' :: (r.temp.take (i - r.dt.length - 1)
          ++ ',' :: (r.temp.drop (i - r.dt.length - 1 + 1)
          ++ ',' :: (r.prev ++ ',' :: r.entry)))) ++ ['\r'])
        = r.dt ++ ',' :: (r.temp.take (i - r.dt.length - 1)
          ++ ',' :: (r.temp.drop (i - r.dt.length - 1 + 1)
          ++ ',' :: (r.prev ++ ',' :: r.entry))) := by
      rw [trim_append_cr]
      exact trim_mk2 (headNotWs_field_append hdh) (by simp) hlast1
    have hlen5 : ¬(r.dt ++ ',' :: (r.temp.take (i - r.dt.length - 1)
        ++ ',' :: (r.temp.drop (i - r.dt.length - 1 + 1)
        ++ ',' :: (r.prev ++ ',' :: r.entry)))).length < 5 := by
      simp only [List.length_append, List.length_cons]
      omega
    rw [checkLine_of_trim htr hdc htake hdrop hlen5]
    by_cases hq : r.temp.drop (i - r.dt.length - 1 + 1) ≠ r.prev
    · rw [if_pos hq]
      exact Or.inl ⟨_, rfl⟩
    · rw [if_neg hq, if_pos (sha256_ne_of_comma_mem (by simp))]
      exact Or.inl ⟨_, rfl⟩
  · have hset : ',' ∉ r.temp.set (i - r.dt.length - 1) c := notMem_set htc hcw
    have htr : trim ((r.dt ++ ',' :: (r.temp.set (i - r.dt.length - 1) c
          ++ ',' :: (r.prev ++ ',' :: r.entry))) ++ ['\r'])
        = r.dt ++ ',' :: (r.temp.set (i - r.dt.length - 1) c
          ++ ',' :: (r.prev ++ ',' :: r.entry)) := by
      rw [trim_append_cr]
      exact trim_mk2 (headNotWs_field_append hdh) hene hlaste
    have hlen5 : ¬(r.dt ++ ',' :: (r.temp.set (i - r.dt.length - 1) c
        ++ ',' :: (r.prev ++ ',' :: r.entry))).length < 5 := by
      simp only [List.length_append, List.length_cons]
      omega
    rw [checkLine_of_trim htr hdc hset hpc hlen5, if_neg (fun hx => hx rfl)]
    by_cases hh : sha256 (r.prev ++ r.dt
        ++ ',' :: r.temp.set (i - r.dt.length - 1) c) ≠ r.entry
    · rw [if_pos hh]
      exact Or.inl ⟨_, rfl⟩
    · rw [if_neg hh]
      push_neg at hh
      refine Or.inr ⟨r.dt ++ ',' :: r.temp.set (i - r.dt.length - 1) c, ?_, ?_⟩
      · intro he
        rw [payload] at he
        have h4 := List.append_cancel_left he
        injection h4 with hhd htl
        exact set_ne_self hj hc2 htl
      · rw [← List.append_assoc]
        exact hh

theorem checkA_r3 {r : Rec} (hg : goodRec r = true) (hphex : isHex64 r.prev = true)
    (hent : r.entry = sha256 (r.prev ++ payload r)) {i : Nat} {c : Char}
    (h1 : r.dt.length + r.temp.length + 2 ≤ i)
    (h2 : i < r.dt.length + r.temp.length + 2 + r.prev.length)
    (hj : i - r.dt.length - r.temp.length - 2 < r.prev.length)
    (hc2 : c ≠ r.prev.get ⟨i - r.dt.length - r.temp.length - 2, hj⟩)
    (hcnl : c ≠ '\n') :
    (∃ reason, checkLine r.prev ((core r).set i c ++ ['\r']) = .fail reason)
    ∨ ∃ pl2, pl2 ≠ payload r ∧ sha256 (r.prev ++ pl2) = r.entry := by
  obtain ⟨hdc, hdn, hdh, htc, htn⟩ := goodRec_parts hg
  have hpc := isHex64_comma_notMem hphex
  have hehex : isHex64 r.entry = true := by rw [hent]; exact isHex64_sha256 _
  have hene := isHex64_ne_nil hehex
  have heno := isHex64_noWs hehex
  have hplen := isHex64_length hphex
  have helen := isHex64_length hehex
  have hlaste : headNotWs r.entry.reverse = true :=
    headNotWs_of_noWs (fun x hx => heno x (by simpa using hx))
  rw [set_core_r3 h1 h2]
  by_cases hcw : c = ','
  · subst hcw
    rw [List.set_eq_take_cons_drop ',' hj]
    have hX : r.dt ++ ',' :: (r.temp
          ++ ',' :: ((r.prev.take (i - r.dt.length - r.temp.length - 2)
          ++ ',' :: r.prev.drop (i - r.dt.length - r.temp.length - 2 + 1))
          ++ ',' :: r.entry))
        = r.dt ++ ',' :: (r.temp
          ++ ',' :: (r.prev.take (i - r.dt.length - r.temp.length - 2)
          ++ ',' :: (r.prev.drop (i - r.dt.length - r.temp.length - 2 + 1)
          ++ ',' :: r.entry))) := by
      simp [List.append_assoc]
    rw [hX]
    have hlast1 : headNotWs (r.prev.drop (i - r.dt.length - r.temp.length - 2 + 1)
        ++ ',' :: r.entry).reverse = true := by
      rw [headNotWs_rev_append (by simp), ← List.singleton_append,
        headNotWs_rev_append hene]
      exact hlaste
    have htake : ',' ∉ r.prev.take (i - r.dt.length - r.temp.length - 2) :=
      fun hm => hpc (List.Sublist.mem hm (List.take_sublist _ r.prev))
    have htr : trim ((r.dt ++ ',' :: (r.temp
          ++ ',' :: (r.prev.take (i - r.dt.length - r.temp.length - 2)
          ++ ',' :: (r.prev.drop (i - r.dt.length - r.temp.length - 2 + 1)
          ++ ',' :: r.entry)))) ++ ['\r'])
        = r.dt ++ ',' :: (r.temp
          ++ ',' :: (r.prev.take (i - r.dt.length - r.temp.length - 2)
          ++ ',' :: (r.prev.drop (i - r.dt.length - r.temp.length - 2 + 1)
          ++ ',' :: r.entry))) := by
      rw [trim_append_cr]
      exact trim_mk2 (headNotWs_field_append hdh) (by simp) hlast1
    have hlen5 : ¬(r.dt ++ ',' :: (r.temp
        ++ ',' :: (r.prev.take (i - r.dt.length - r.temp.length - 2)
        ++ ',' :: (r.prev.drop (i - r.dt.length - r.temp.length - 2 + 1)
        ++ ',' :: r.entry)))).length < 5 := by
      simp only [List.length_append, List.length_cons]
      omega
    rw [checkLine_of_trim htr hdc htc htake hlen5]
    rw [if_pos (by
      apply ne_of_length_ne
      rw [List.length_take]
      omega)]
    exact Or.inl ⟨_, rfl⟩
  · have hset : ',' ∉ r.prev.set (i - r.dt.length - r.temp.length - 2) c :=
      notMem_set hpc hcw
    have htr : trim ((r.dt ++ ',' :: (r.temp
          ++ ',' :: (r.prev.set (i - r.dt.length - r.temp.length - 2) c
          ++ ',' :: r.entry))) ++ ['\r'])
        = r.dt ++ ',' :: (r.temp
          ++ ',' :: (r.prev.set (i - r.dt.length - r.temp.length - 2) c
          ++ ',' :: r.entry)) := by
      rw [trim_append_cr]
      exact trim_mk2 (headNotWs_field_append hdh) hene hlaste
    have hlen5 : ¬(r.dt ++ ',' :: (r.temp
        ++ ',' :: (r.prev.set (i - r.dt.length - r.temp.length - 2) c
        ++ ',' :: r.entry))).length < 5 := by
      simp only [List.length_append, List.length_cons]
      omega
    rw [checkLine_of_trim htr hdc htc hset hlen5]
    rw [if_pos (set_ne_self hj hc2)]
    exact Or.inl ⟨_, rfl⟩

theorem checkA_r4 {r : Rec} (hg : goodRec r = true) (hphex : isHex64 r.prev = true)
    (hent : r.entry = sha256 (r.prev ++ payload r)) {i : Nat} {c : Char}
    (h1 : r.dt.length + r.temp.length + r.prev.length + 3 ≤ i)
    (hj : i - r.dt.length - r.temp.length - r.prev.length - 3 < r.entry.length)
    (hc2 : c ≠ r.entry.get ⟨i - r.dt.length - r.temp.length - r.prev.length - 3, hj⟩)
    (hcnl : c ≠ '\n') :
    (∃ reason, checkLine r.prev ((core r).set i c ++ ['\r']) = .fail reason)
    ∨ ∃ pl2, pl2 ≠ payload r ∧ sha256 (r.prev ++ pl2) = r.entry := by
  obtain ⟨hdc, hdn, hdh, htc, htn⟩ := goodRec_parts hg
  have hpc := isHex64_comma_notMem hphex
  have hehex : isHex64 r.entry = true := by rw [hent]; exact isHex64_sha256 _
  have hene := isHex64_ne_nil hehex
  have heno := isHex64_noWs hehex
  have hplen := isHex64_length hphex
  have helen := isHex64_length hehex
  have hsha : sha256 (r.prev ++ r.dt ++ ',' :: r.temp) = r.entry := by
    rw [hent, payload, List.append_assoc]
  rw [set_core_r4 h1]
  by_cases hwsc2 : isSpaceChar c = true
      ∧ i - r.dt.length - r.temp.length - r.prev.length - 3 + 1 = r.entry.length
  · -- the final character of the line is replaced by whitespace: trimmed away
    obtain ⟨hwsc, hje⟩ := hwsc2
    rw [List.set_eq_take_cons_drop c hj]
    have hdrop0 : r.entry.drop
        (i - r.dt.length - r.temp.length - r.prev.length - 3 + 1) = [] := by
      apply List.drop_eq_nil_of_le
      omega
    rw [hdrop0]
    have hX : r.dt ++ ',' :: (r.temp ++ ',' :: (r.prev
          ++ ',' :: (r.entry.take
            (i - r.dt.length - r.temp.length - r.prev.length - 3) ++ c :: [])))
        = (r.dt ++ ',' :: (r.temp ++ ',' :: (r.prev
          ++ ',' :: r.entry.take
            (i - r.dt.length - r.temp.length - r.prev.length - 3)))) ++ [c] := by
      simp [List.append_assoc]
    rw [hX]
    have hYne : r.dt ++ ',' :: (r.temp ++ ',' :: (r.prev
        ++ ',' :: r.entry.take
          (i - r.dt.length - r.temp.length - r.prev.length - 3))) ≠ [] := by
      simp
    have htkne : r.entry.take
        (i - r.dt.length - r.temp.length - r.prev.length - 3) ≠ [] := by
      intro hh
      have := congrArg List.length hh
      simp only [List.length_take, List.length_nil] at this
      omega
    have htkws : headNotWs (r.entry.take
        (i - r.dt.length - r.temp.length - r.prev.length - 3)).reverse = true := by
      apply headNotWs_of_noWs
      intro z hz
      have hz2 : z ∈ r.entry.take
          (i - r.dt.length - r.temp.length - r.prev.length - 3) := by simpa using hz
      exact heno z (List.Sublist.mem hz2 (List.take_sublist _ _))
    have htr : trim (((r.dt ++ ',' :: (r.temp ++ ',' :: (r.prev
          ++ ',' :: r.entry.take
            (i - r.dt.length - r.temp.length - r.prev.length - 3)))) ++ [c])
            ++ ['\r'])
        = r.dt ++ ',' :: (r.temp ++ ',' :: (r.prev
          ++ ',' :: r.entry.take
            (i - r.dt.length - r.temp.length - r.prev.length - 3))) := by
      rw [trim_append_cr, trim,
        trimLeft_eq_self (by
          rw [headNotWs_append_left hYne]
          exact headNotWs_field_append hdh),
        trimRight_append_ws hwsc]
      exact trimRight_eq_self (headNotWs_rev_mk2 htkne htkws)
    have hlen5 : ¬(r.dt ++ ',' :: (r.temp ++ ',' :: (r.prev
        ++ ',' :: r.entry.take
          (i - r.dt.length - r.temp.length - r.prev.length - 3)))).length < 5 := by
      simp only [List.length_append, List.length_cons, List.length_take]
      omega
    rw [checkLine_of_trim htr hdc htc hpc hlen5, if_neg (fun hx => hx rfl)]
    rw [if_pos (by
      apply ne_of_length_ne
      rw [sha256_length, List.length_take]
      omega)]
    exact Or.inl ⟨_, rfl⟩
  · -- the entry keeps its final non-whitespace character
    have hlast2 : headNotWs (r.entry.set
        (i - r.dt.length - r.temp.length - r.prev.length - 3) c).reverse = true := by
      by_cases hα : i - r.dt.length - r.temp.length - r.prev.length - 3 + 1
          < r.entry.length
      · exact headNotWs_rev_set_of_lt heno hα
      · have hje : i - r.dt.length - r.temp.length - r.prev.length - 3 + 1
            = r.entry.length := by omega
        have hwns : isSpaceChar c = false := by
          rcases hcc : isSpaceChar c with _ | _
          · rfl
          · exact absurd ⟨hcc, hje⟩ hwsc2
        rw [List.set_eq_take_cons_drop c hj,
          List.drop_eq_nil_of_le (by omega)]
        have hrev : (r.entry.take
              (i - r.dt.length - r.temp.length - r.prev.length - 3)
              ++ c :: []).reverse
            = c :: (r.entry.take
              (i - r.dt.length - r.temp.length - r.prev.length - 3)).reverse := by
          simp
        rw [hrev]
        simp [headNotWs, hwns]
    have hsetne : r.entry.set
        (i - r.dt.length - r.temp.length - r.prev.length - 3) c ≠ [] := by
      intro hh
      have := congrArg List.length hh
      simp only [List.length_set, List.length_nil] at this
      omega
    have htr : trim ((r.dt ++ ',' :: (r.temp ++ ',' :: (r.prev
          ++ ',' :: r.entry.set
            (i - r.dt.length - r.temp.length - r.prev.length - 3) c))) ++ ['\r'])
        = r.dt ++ ',' :: (r.temp ++ ',' :: (r.prev
          ++ ',' :: r.entry.set
            (i - r.dt.length - r.temp.length - r.prev.length - 3) c)) := by
      rw [trim_append_cr]
      exact trim_mk2 (headNotWs_field_append hdh) hsetne hlast2
    have hlen5 : ¬(r.dt ++ ',' :: (r.temp ++ ',' :: (r.prev
        ++ ',' :: r.entry.set
          (i - r.dt.length - r.temp.length - r.prev.length - 3) c))).length < 5 := by
      simp only [List.length_append, List.length_cons, List.length_set]
      omega
    rw [checkLine_of_trim htr hdc htc hpc hlen5, if_neg (fun hx => hx rfl)]
    rw [if_pos (by
      intro heq
      rw [hsha] at heq
      exact set_ne_self hj hc2 heq.symm)]
    exact Or.inl ⟨_, rfl⟩

end IotLogger

namespace IotLogger

/-! ### Newline replacement: a proper prefix of a row never passes the check -/

theorem take_cons_of_pos {α : Type} (a : α) (l : List α) {n : Nat} (h : 0 < n) :
    (a :: l).take n = a :: l.take (n - 1) := by
  cases n with
  | zero => omega
  | succ m => simp [List.take_succ_cons]

theorem count_comma_A3 {r : Rec} (hdc : ',' ∉ r.dt) (htc : ',' ∉ r.temp)
    (hpc : ',' ∉ r.prev) :
    (r.dt ++ ',' :: r.temp ++ ',' :: r.prev).count ',' = 2 := by
  simp [List.count_append, List.count_cons, List.count_eq_zero.mpr hdc,
    List.count_eq_zero.mpr htc, List.count_eq_zero.mpr hpc]

theorem checkLine_eq_skip {e l : Str} (h : checkLine e l = .skip) :
    (trim l).length < 5 := by
  by_contra hlen
  simp only [checkLine] at h
  rw [if_neg hlen] at h
  split at h
  · exact LineStep.noConfusion h
  · split at h
    · exact LineStep.noConfusion h
    · split at h
      · exact LineStep.noConfusion h
      · exact LineStep.noConfusion h

theorem checkLine_take_not_pass {r : Rec} (hg : goodRec r = true)
    (hphex : isHex64 r.prev = true)
    (hent : r.entry = sha256 (r.prev ++ payload r)) {i : Nat}
    (hi : i < (core r).length) {x : Str} :
    checkLine r.prev ((core r).take i) ≠ .pass x := by
  obtain ⟨hdc, hdn, hdh, htc, htn⟩ := goodRec_parts hg
  have hpc := isHex64_comma_notMem hphex
  have hehex : isHex64 r.entry = true := by rw [hent]; exact isHex64_sha256 _
  have hplen := isHex64_length hphex
  have helen := isHex64_length hehex
  have hcl := core_length r
  intro hpass
  have hhead : headNotWs ((core r).take i) = true := by
    cases i with
    | zero => rfl
    | succ n =>
        rw [headNotWs_take (Nat.succ_pos n), core_assoc]
        exact headNotWs_field_append hdh
  have hq : trim ((core r).take i) <+: core r := by
    rw [trim, trimLeft_eq_self hhead]
    exact (trimRight_front _).trans (List.take_prefix i (core r))
  have hqlen : (trim ((core r).take i)).length < (core r).length := by
    have h1 := List.IsPrefix.length_le (trimRight_front ((core r).take i))
    have h2 : ((core r).take i).length ≤ i := by
      simp only [List.length_take]
      omega
    rw [trim, trimLeft_eq_self hhead]
    omega
  have hqeq : trim ((core r).take i)
      = (core r).take (trim ((core r).take i)).length :=
    List.prefix_iff_eq_take.mp hq
  simp only [checkLine] at hpass
  by_cases hlen : (trim ((core r).take i)).length < 5
  · rw [if_pos hlen] at hpass
    exact LineStep.noConfusion hpass
  · rw [if_neg hlen] at hpass
    split at hpass
    · exact LineStep.noConfusion hpass
    · rename_i A B C E hp
      split at hpass
      · exact LineStep.noConfusion hpass
      · split at hpass
        · exact LineStep.noConfusion hpass
        · rename_i hC hH
          push_neg at hH
          obtain ⟨hform, hA, hB, hC2⟩ := parseRow_eq_some hp
          obtain ⟨L, hLdef⟩ : ∃ n, (trim ((core r).take i)).length = n := ⟨_, rfl⟩
          rw [hLdef] at hqeq hqlen hlen
          by_cases hL : L < r.dt.length + r.temp.length + r.prev.length + 3
          · have hc2count : (trim ((core r).take i)).count ',' ≤ 2 := by
              have hpref2 : trim ((core r).take i)
                  = ((core r).take
                      (r.dt.length + r.temp.length + r.prev.length + 2)).take L := by
                rw [List.take_take, Nat.min_eq_left (by omega)]
                exact hqeq
              have hsub : List.Sublist (trim ((core r).take i))
                  ((core r).take
                      (r.dt.length + r.temp.length + r.prev.length + 2)) := by
                rw [hpref2]
                exact (List.take_prefix _ _).sublist
              have hcount2 : ((core r).take
                  (r.dt.length + r.temp.length + r.prev.length + 2)).count ',' = 2 := by
                rw [core_concat,
                  List.take_append_of_le_length
                    (by simp only [List.length_append, List.length_cons]; omega),
                  List.take_of_length_le
                    (by simp only [List.length_append, List.length_cons]; omega)]
                exact count_comma_A3 hdc htc hpc
              calc (trim ((core r).take i)).count ','
                  ≤ ((core r).take
                      (r.dt.length + r.temp.length + r.prev.length + 2)).count ',' :=
                    List.Sublist.count_le hsub ','
                _ = 2 := hcount2
            have hc3count : 3 ≤ (trim ((core r).take i)).count ',' := by
              rw [hform]
              simp only [List.count_append, List.count_cons]
              simp
              omega
            omega
          · have hqeq2 : trim ((core r).take i)
                = r.dt ++ ',' :: (r.temp ++ ',' :: (r.prev ++ ',' :: r.entry.take
                    (L - (r.dt.length + r.temp.length + r.prev.length + 3)))) := by
              rw [hqeq, core_concat, List.take_append_eq_append_take,
                List.take_of_length_le
                  (by simp only [List.length_append, List.length_cons]; omega),
                take_cons_of_pos _ _
                  (by simp only [List.length_append, List.length_cons]; omega)]
              have hidx : L - (r.dt ++ ',' :: r.temp ++ ',' :: r.prev).length - 1
                  = L - (r.dt.length + r.temp.length + r.prev.length + 3) := by
                simp only [List.length_append, List.length_cons]
                omega
              rw [hidx]
              simp [List.append_assoc]
            rw [hqeq2, parseRow_encode hdc htc hpc] at hp
            have h4 := Option.some.inj hp
            have hE : E = r.entry.take
                (L - (r.dt.length + r.temp.length + r.prev.length + 3)) :=
              (congrArg (fun q => q.2.2.2) h4).symm
            have hshalen := sha256_length (C ++ A ++ ',' :: B)
            have hElen : E.length
                ≤ L - (r.dt.length + r.temp.length + r.prev.length + 3) := by
              rw [hE]
              simp only [List.length_take]
              omega
            rw [hH] at hshalen
            omega

end IotLogger

namespace IotLogger

/-! ### Tampering one of the three separator commas, and the split line -/

theorem trim_sublist (s : Str) : List.Sublist (trim s) s := by
  rw [trim]
  have h1 : trimRight (trimLeft s) <+: trimLeft s := trimRight_front _
  have h2 : trimLeft s <:+ s := List.dropWhile_suffix _
  exact h1.sublist.trans h2.sublist

theorem countP_set_le {l : Str} {i : Nat} (c : Char) (hi : i < l.length)
    (p : Char → Bool) : l.countP p ≤ (l.set i c).countP p + 1 := by
  obtain ⟨x, hx⟩ : ∃ x, l.drop i = x :: l.drop (i + 1) :=
    ⟨_, List.drop_eq_getElem_cons hi⟩
  rw [List.set_eq_take_cons_drop c hi]
  conv_lhs => rw [← List.take_append_drop i l, hx]
  simp only [List.countP_append, List.countP_cons]
  cases hp1 : p x <;> cases hp2 : p c <;> simp [hp1, hp2] <;> omega

theorem count_comma_set {l : Str} {i : Nat} {c : Char} (hi : i < l.length)
    (hcm : l.get ⟨i, hi⟩ = ',') (hc : c ≠ ',') :
    (l.set i c).count ',' + 1 = l.count ',' := by
  have hgi : l[i] = ',' := by
    simpa using hcm
  have hx : l.drop i = ',' :: l.drop (i + 1) := by
    rw [List.drop_eq_getElem_cons hi, hgi]
  rw [List.set_eq_take_cons_drop c hi]
  conv_rhs => rw [← List.take_append_drop i l, hx]
  simp only [List.count_append, List.count_cons]
  have hcc : (c == ',') = false := by simp [hc]
  simp only [hcc, beq_self_eq_true, Bool.false_eq_true, eq_self_iff_true,
    if_true, if_false]
  omega

theorem core_get_comma {r : Rec} {i : Nat} (hi : i < (core r).length)
    (h : (core r)[i]? = some ',') : (core r).get ⟨i, hi⟩ = ',' := by
  rw [List.get_eq_getElem]
  have h2 := List.getElem?_eq_getElem hi
  rw [h2] at h
  exact Option.some.inj h

theorem core_get?_c1 (r : Rec) : (core r)[r.dt.length]? = some ',' := by
  rw [core_assoc, List.getElem?_append_right (le_refl _), Nat.sub_self]
  simp

theorem core_get?_c2 (r : Rec) :
    (core r)[r.dt.length + 1 + r.temp.length]? = some ',' := by
  rw [core_assoc2,
    List.getElem?_append_right
      (by simp only [List.length_append, List.length_cons]; omega)]
  have h3 : r.dt.length + 1 + r.temp.length - (r.dt ++ ',' :: r.temp).length = 0 := by
    simp only [List.length_append, List.length_cons]
    omega
  rw [h3]
  simp

theorem core_get?_c3 (r : Rec) :
    (core r)[r.dt.length + r.temp.length + 2 + r.prev.length]? = some ',' := by
  rw [core_concat,
    List.getElem?_append_right
      (by simp only [List.length_append, List.length_cons]; omega)]
  have h3 : r.dt.length + r.temp.length + 2 + r.prev.length
      - (r.dt ++ ',' :: r.temp ++ ',' :: r.prev).length = 0 := by
    simp only [List.length_append, List.length_cons]
    omega
  rw [h3]
  simp

theorem suffix_prev_entry (r : Rec) : (r.prev ++ ',' :: r.entry) <:+ core r := by
  rw [core_assoc]
  have s1 : (r.prev ++ ',' :: r.entry) <:+ ',' :: (r.prev ++ ',' :: r.entry) :=
    List.suffix_cons _ _
  have s2 : ',' :: (r.prev ++ ',' :: r.entry)
      <:+ r.temp ++ ',' :: (r.prev ++ ',' :: r.entry) := List.suffix_append _ _
  have s3 : r.temp ++ ',' :: (r.prev ++ ',' :: r.entry)
      <:+ ',' :: (r.temp ++ ',' :: (r.prev ++ ',' :: r.entry)) := List.suffix_cons _ _
  have s4 : ',' :: (r.temp ++ ',' :: (r.prev ++ ',' :: r.entry))
      <:+ r.dt ++ ',' :: (r.temp ++ ',' :: (r.prev ++ ',' :: r.entry)) :=
    List.suffix_append _ _
  exact s1.trans (s2.trans (s3.trans s4))

theorem countP_nonWs_core {r : Rec} (hphex : isHex64 r.prev = true)
    (hehex : isHex64 r.entry = true) :
    128 ≤ (core r).countP (fun z => !isSpaceChar z) := by
  have hp64 : r.prev.countP (fun z => !isSpaceChar z) = r.prev.length :=
    List.countP_eq_length.mpr (fun a ha => by simp [isHex64_noWs hphex a ha])
  have he64 : r.entry.countP (fun z => !isSpaceChar z) = r.entry.length :=
    List.countP_eq_length.mpr (fun a ha => by simp [isHex64_noWs hehex a ha])
  have hplen := isHex64_length hphex
  have helen := isHex64_length hehex
  have hsub := (suffix_prev_entry r).sublist
  have hle : (r.prev ++ ',' :: r.entry).countP (fun z => !isSpaceChar z)
      ≤ (core r).countP (fun z => !isSpaceChar z) :=
    hsub.countP_le _
  have hval : 128 ≤ (r.prev ++ ',' :: r.entry).countP (fun z => !isSpaceChar z) := by
    rw [List.countP_append, List.countP_cons, hp64, he64]
    have hcw : (!isSpaceChar ',') = true := by decide
    rw [hcw, if_pos rfl]
    omega
  omega

theorem checkA_comma {r : Rec} (hg : goodRec r = true)
    (hphex : isHex64 r.prev = true)
    (hent : r.entry = sha256 (r.prev ++ payload r)) {i : Nat} {c : Char}
    (hi : i < (core r).length) (hcm : (core r).get ⟨i, hi⟩ = ',')
    (hc2 : c ≠ ',') :
    ∃ reason, checkLine r.prev ((core r).set i c ++ ['\r']) = .fail reason := by
  obtain ⟨hdc, hdn, hdh, htc, htn⟩ := goodRec_parts hg
  have hpc := isHex64_comma_notMem hphex
  have hehex : isHex64 r.entry = true := by rw [hent]; exact isHex64_sha256 _
  have hec := isHex64_comma_notMem hehex
  have hc3 : (core r).count ',' = 3 := by
    rw [core_assoc]
    simp [List.count_append, List.count_cons, List.count_eq_zero.mpr hdc,
      List.count_eq_zero.mpr htc, List.count_eq_zero.mpr hpc,
      List.count_eq_zero.mpr hec]
  have hset2 := count_comma_set hi hcm hc2
  have hsetP := countP_set_le c hi (fun z => !isSpaceChar z)
  have hcoreP := countP_nonWs_core hphex hehex
  have htlen : 127 ≤ (trim ((core r).set i c)).length := by
    have h1 := countP_nonWs_le_trim ((core r).set i c)
    omega
  have htcnt : (trim ((core r).set i c)).count ',' ≤ 2 := by
    have h1 := (trim_sublist ((core r).set i c)).count_le ','
    omega
  refine ⟨.badCSV, ?_⟩
  have htr := trim_append_cr ((core r).set i c)
  simp only [checkLine, htr]
  rw [if_neg (by omega)]
  simp only [parseRow_eq_none_iff.mpr
    (show (trim ((core r).set i c)).count ',' < 3 by omega)]

theorem checkB_fragB {r : Rec} (hg : goodRec r = true)
    (hphex : isHex64 r.prev = true)
    (hent : r.entry = sha256 (r.prev ++ payload r)) {i : Nat}
    (hi : i < (core r).length)
    (hskipA : checkLine r.prev ((core r).take i) = .skip) :
    (∃ reason, checkLine r.prev ((core r).drop (i + 1) ++ ['\r']) = .fail reason)
    ∨ ∃ pl2, pl2 ≠ payload r ∧ sha256 (r.prev ++ pl2) = r.entry := by
  obtain ⟨hdc, hdn, hdh, htc, htn⟩ := goodRec_parts hg
  have hpc := isHex64_comma_notMem hphex
  have hehex : isHex64 r.entry = true := by rw [hent]; exact isHex64_sha256 _
  have hene := isHex64_ne_nil hehex
  have heno := isHex64_noWs hehex
  have hplen := isHex64_length hphex
  have helen := isHex64_length hehex
  have hcl := core_length r
  -- the skipped prefix holds at most 4 non-whitespace characters
  have hskip5 := checkLine_eq_skip hskipA
  have htakeP : ((core r).take i).countP (fun z => !isSpaceChar z) ≤ 4 := by
    have h1 := countP_nonWs_le_trim ((core r).take i)
    omega
  have hcoreP := countP_nonWs_core hphex hehex
  -- so the tail after the split point keeps at least 123 of them
  have htd := congrArg (List.countP (fun z => !isSpaceChar z))
    (List.take_append_drop i (core r))
  rw [List.countP_append] at htd
  obtain ⟨x, hx⟩ : ∃ x, (core r).drop i = x :: (core r).drop (i + 1) :=
    ⟨_, List.drop_eq_getElem_cons hi⟩
  have h5 : ((core r).drop i).countP (fun z => !isSpaceChar z)
      ≤ ((core r).drop (i + 1)).countP (fun z => !isSpaceChar z) + 1 := by
    rw [hx, List.countP_cons]
    cases hpx : isSpaceChar x <;> simp [hpx]
  have hdropP : 123 ≤ ((core r).drop (i + 1)).countP (fun z => !isSpaceChar z) := by
    omega
  -- the trimmed second fragment is a suffix  drop m (core r)  of the row
  have huP : (((core r).drop (i + 1)).dropWhile isSpaceChar).countP
      (fun z => !isSpaceChar z)
      = ((core r).drop (i + 1)).countP (fun z => !isSpaceChar z) :=
    countP_nonWs_dropWhile _
  have hulen : 123 ≤ (((core r).drop (i + 1)).dropWhile isSpaceChar).length := by
    have h1 := List.countP_le_length (fun z => !isSpaceChar z)
      (l := ((core r).drop (i + 1)).dropWhile isSpaceChar)
    omega
  have hune : ((core r).drop (i + 1)).dropWhile isSpaceChar ≠ [] :=
    List.length_pos.mp (by omega)
  obtain ⟨t, ht⟩ : ((core r).drop (i + 1)).dropWhile isSpaceChar <:+ core r :=
    (List.dropWhile_suffix _).trans (List.drop_suffix _ _)
  have hm2 : ((core r).drop (i + 1)).dropWhile isSpaceChar
      = (core r).drop t.length := by
    conv_rhs => rw [← ht]
    rw [List.drop_left]
  have hlenEq : t.length + (((core r).drop (i + 1)).dropWhile isSpaceChar).length
      = (core r).length := by
    conv_rhs => rw [← ht]
    simp
  have hti : i + 1 ≤ t.length := by
    have h1 : (((core r).drop (i + 1)).dropWhile isSpaceChar).length
        ≤ ((core r).drop (i + 1)).length :=
      (List.dropWhile_suffix _).length_le
    rw [List.length_drop] at h1
    omega
  have hurev : headNotWs (((core r).drop (i + 1)).dropWhile isSpaceChar).reverse
      = true := by
    have hrevcore : headNotWs (core r).reverse = true := headNotWs_core_rev hene heno
    have h2 : (core r).reverse
        = (((core r).drop (i + 1)).dropWhile isSpaceChar).reverse ++ t.reverse := by
      conv_lhs => rw [← ht]
      rw [List.reverse_append]
    rw [h2, headNotWs_append_left (by simpa using hune)] at hrevcore
    exact hrevcore
  have htrimB : trim ((core r).drop (i + 1) ++ ['\r'])
      = ((core r).drop (i + 1)).dropWhile isSpaceChar := by
    rw [trim_append_cr, trim]
    exact trimRight_eq_self hurev
  by_cases hmd : t.length ≤ r.dt.length
  · -- cut inside the timestamp: the fragment still parses, with a shorter
    -- first field, so either the hash check fails or a second preimage exists
    have hudef : ((core r).drop (i + 1)).dropWhile isSpaceChar
        = r.dt.drop t.length
          ++ ',' :: (r.temp ++ ',' :: (r.prev ++ ',' :: r.entry)) := by
      rw [hm2, core_assoc, List.drop_append_eq_append_drop,
        Nat.sub_eq_zero_of_le hmd, List.drop_zero]
    have hdropc : ',' ∉ r.dt.drop t.length :=
      fun hm => hdc (List.Sublist.mem hm (List.drop_sublist _ _))
    have hlen5 : ¬(r.dt.drop t.length
        ++ ',' :: (r.temp ++ ',' :: (r.prev ++ ',' :: r.entry))).length < 5 := by
      simp only [List.length_append, List.length_cons]
      omega
    have htrim2 : trim ((core r).drop (i + 1) ++ ['\r'])
        = r.dt.drop t.length
          ++ ',' :: (r.temp ++ ',' :: (r.prev ++ ',' :: r.entry)) := by
      rw [htrimB, hudef]
    rw [checkLine_of_trim htrim2 hdropc htc hpc hlen5, if_neg (fun hx2 => hx2 rfl)]
    by_cases hh : sha256 (r.prev ++ r.dt.drop t.length ++ ',' :: r.temp) ≠ r.entry
    · rw [if_pos hh]
      exact Or.inl ⟨_, rfl⟩
    · rw [if_neg hh]
      push_neg at hh
      refine Or.inr ⟨r.dt.drop t.length ++ ',' :: r.temp, ?_, ?_⟩
      · apply ne_of_length_ne
        simp only [payload, List.length_append, List.length_cons, List.length_drop]
        omega
      · rw [← List.append_assoc]
        exact hh
  · -- cut past the timestamp: at most two commas survive, bad CSV
    push_neg at hmd
    have hidx2 : r.dt.length + 1 + (t.length - r.dt.length - 1) = t.length := by
      omega
    have h1 : ((core r).drop (i + 1)).dropWhile isSpaceChar
        = ((core r).drop (r.dt.length + 1)).drop (t.length - r.dt.length - 1) := by
      rw [List.drop_drop, hidx2]
      exact hm2
    have h2 : (core r).drop (r.dt.length + 1)
        = r.temp ++ ',' :: (r.prev ++ ',' :: r.entry) := by
      rw [core_assoc, List.drop_append_eq_append_drop,
        List.drop_eq_nil_of_le (by omega)]
      have h3 : r.dt.length + 1 - r.dt.length = 1 := by omega
      rw [h3, List.nil_append, List.drop_one, List.tail_cons]
    have hcnt : (((core r).drop (i + 1)).dropWhile isSpaceChar).count ',' ≤ 2 := by
      calc (((core r).drop (i + 1)).dropWhile isSpaceChar).count ','
          ≤ ((core r).drop (r.dt.length + 1)).count ',' := by
            rw [h1]
            exact (List.drop_sublist _ _).count_le ','
        _ = 2 := by
            rw [h2]
            simp [List.count_append, List.count_cons, List.count_eq_zero.mpr htc,
              List.count_eq_zero.mpr hpc,
              List.count_eq_zero.mpr (isHex64_comma_notMem hehex)]
    refine Or.inl ⟨.badCSV, ?_⟩
    simp only [checkLine, htrimB]
    rw [if_neg (by omega)]
    simp only [parseRow_eq_none_iff.mpr
      (show (((core r).drop (i + 1)).dropWhile isSpaceChar).count ',' < 3 by omega)]

end IotLogger

namespace IotLogger

/-! ### Claim C5: single-character tamper localization -/

theorem scan_modLines {r : Rec} (hg : goodRec r = true)
    (hphex : isHex64 r.prev = true)
    (hent : r.entry = sha256 (r.prev ++ payload r)) {i : Nat} {c : Char}
    (hi : i < (core r).length) (hc2 : c ≠ (core r).get ⟨i, hi⟩)
    (k : Nat) (rest : List Str) :
    (∃ reason, scanLines r.prev k (modLines r i c ++ rest)
        = .tampered (k + 1) reason)
    ∨ ∃ pl2, pl2 ≠ payload r ∧ sha256 (r.prev ++ pl2) = r.entry := by
  have hcl := core_length r
  by_cases hnl : c = '\n'
  · -- the byte becomes a newline: the row splits in two short lines
    subst hnl
    rw [modLines, if_pos rfl]
    rcases hA : checkLine r.prev ((core r).take i) with _ | reason | x
    · rcases checkB_fragB hg hphex hent hi hA with ⟨reason, hB⟩ | hcol
      · exact Or.inl ⟨reason, by simp only [List.cons_append, scanLines, hA, hB]⟩
      · exact Or.inr hcol
    · exact Or.inl ⟨reason, by simp only [List.cons_append, scanLines, hA]⟩
    · exact absurd hA (checkLine_take_not_pass hg hphex hent hi)
  · -- any other byte: one line with a single character replaced
    rw [modLines, if_neg hnl]
    rcases Nat.lt_or_ge i r.dt.length with h1 | h1
    · have hceq : (core r).get ⟨i, hi⟩ = r.dt.get ⟨i, h1⟩ :=
        core_get_eq_of_get? hi h1 (core_get?_r1 h1)
      have hc2b : c ≠ r.dt.get ⟨i, h1⟩ := by rw [← hceq]; exact hc2
      rcases checkA_r1 hg hphex hent h1 hc2b hnl with ⟨reason, hf⟩ | hcol
      · exact Or.inl ⟨reason, by simp only [List.singleton_append, scanLines, hf]⟩
      · exact Or.inr hcol
    · rcases Nat.lt_or_ge i (r.dt.length + 1) with h2 | h2
      · have hieq : i = r.dt.length := by omega
        subst hieq
        have hcm : (core r).get ⟨r.dt.length, hi⟩ = ',' :=
          core_get_comma hi (core_get?_c1 r)
        rw [hcm] at hc2
        obtain ⟨reason, hf⟩ := checkA_comma hg hphex hent hi hcm hc2
        exact Or.inl ⟨reason, by simp only [List.singleton_append, scanLines, hf]⟩
      · rcases Nat.lt_or_ge i (r.dt.length + 1 + r.temp.length) with h3 | h3
        · have hj : i - r.dt.length - 1 < r.temp.length := by omega
          have hceq : (core r).get ⟨i, hi⟩
              = r.temp.get ⟨i - r.dt.length - 1, hj⟩ :=
            core_get_eq_of_get? hi hj (core_get?_r2 h2 h3)
          have hc2b : c ≠ r.temp.get ⟨i - r.dt.length - 1, hj⟩ := by
            rw [← hceq]; exact hc2
          rcases checkA_r2 hg hphex hent h2 h3 hj hc2b hnl with ⟨reason, hf⟩ | hcol
          · exact Or.inl ⟨reason,
              by simp only [List.singleton_append, scanLines, hf]⟩
          · exact Or.inr hcol
        · rcases Nat.lt_or_ge i (r.dt.length + r.temp.length + 2) with h4 | h4
          · have hieq : i = r.dt.length + 1 + r.temp.length := by omega
            subst hieq
            have hcm : (core r).get ⟨r.dt.length + 1 + r.temp.length, hi⟩ = ',' :=
              core_get_comma hi (core_get?_c2 r)
            rw [hcm] at hc2
            obtain ⟨reason, hf⟩ := checkA_comma hg hphex hent hi hcm hc2
            exact Or.inl ⟨reason,
              by simp only [List.singleton_append, scanLines, hf]⟩
          · rcases Nat.lt_or_ge i
                (r.dt.length + r.temp.length + 2 + r.prev.length) with h5 | h5
            · have hj : i - r.dt.length - r.temp.length - 2 < r.prev.length := by
                omega
              have hceq : (core r).get ⟨i, hi⟩
                  = r.prev.get ⟨i - r.dt.length - r.temp.length - 2, hj⟩ :=
                core_get_eq_of_get? hi hj (core_get?_r3 h4 h5)
              have hc2b : c ≠ r.prev.get ⟨i - r.dt.length - r.temp.length - 2, hj⟩ := by
                rw [← hceq]; exact hc2
              rcases checkA_r3 hg hphex hent h4 h5 hj hc2b hnl
                with ⟨reason, hf⟩ | hcol
              · exact Or.inl ⟨reason,
                  by simp only [List.singleton_append, scanLines, hf]⟩
              · exact Or.inr hcol
            · rcases Nat.lt_or_ge i
                  (r.dt.length + r.temp.length + r.prev.length + 3) with h6 | h6
              · have hieq : i = r.dt.length + r.temp.length + 2 + r.prev.length := by
                  omega
                subst hieq
                have hcm : (core r).get
                    ⟨r.dt.length + r.temp.length + 2 + r.prev.length, hi⟩ = ',' :=
                  core_get_comma hi (core_get?_c3 r)
                rw [hcm] at hc2
                obtain ⟨reason, hf⟩ := checkA_comma hg hphex hent hi hcm hc2
                exact Or.inl ⟨reason,
                  by simp only [List.singleton_append, scanLines, hf]⟩
              · have hj : i - r.dt.length - r.temp.length - r.prev.length - 3
                    < r.entry.length := by omega
                have hceq : (core r).get ⟨i, hi⟩
                    = r.entry.get
                      ⟨i - r.dt.length - r.temp.length - r.prev.length - 3, hj⟩ :=
                  core_get_eq_of_get? hi hj (core_get?_r4 h6)
                have hc2b : c ≠ r.entry.get
                    ⟨i - r.dt.length - r.temp.length - r.prev.length - 3, hj⟩ := by
                  rw [← hceq]; exact hc2
                rcases checkA_r4 hg hphex hent h6 hj hc2b hnl
                  with ⟨reason, hf⟩ | hcol
                · exact Or.inl ⟨reason,
                    by simp only [List.singleton_append, scanLines, hf]⟩
                · exact Or.inr hcol

theorem goodRecs_split {pre suf : List Rec} {r : Rec}
    (h : goodRecs (pre ++ r :: suf) = true) :
    goodRecs pre = true ∧ goodRec r = true := by
  simp only [goodRecs, List.all_append, List.all_cons, Bool.and_eq_true] at h
  refine ⟨?_, h.2.1⟩
  simp only [goodRecs]
  exact h.1

theorem chainOk_append_mid : ∀ (pre : List Rec) (expected : Str) (r : Rec)
    (suf : List Rec), chainOk expected (pre ++ r :: suf) = true →
    chainOk expected pre = true ∧ r.prev = tipFrom expected pre
      ∧ r.entry = sha256 (r.prev ++ payload r) := by
  intro pre
  induction pre with
  | nil =>
      intro expected r suf h
      simp only [List.nil_append, chainOk, Bool.and_eq_true, beq_iff_eq] at h
      exact ⟨rfl, h.1.1, h.1.2⟩
  | cons a pre ih =>
      intro expected r suf h
      simp only [List.cons_append, chainOk, Bool.and_eq_true, beq_iff_eq] at h
      obtain ⟨⟨hp, he⟩, hrest⟩ := h
      obtain ⟨h1, h2, h3⟩ := ih a.entry r suf hrest
      refine ⟨?_, ?_, h3⟩
      · simp only [chainOk, Bool.and_eq_true, beq_iff_eq]
        exact ⟨⟨hp, he⟩, h1⟩
      · simp only [tipFrom]
        exact h2

theorem tipFrom_hex : ∀ (rs : List Rec) (expected : Str),
    isHex64 expected = true → chainOk expected rs = true →
    isHex64 (tipFrom expected rs) = true := by
  intro rs
  induction rs with
  | nil =>
      intro e he _
      exact he
  | cons a rest ih =>
      intro e he hch
      simp only [chainOk, Bool.and_eq_true, beq_iff_eq] at hch
      obtain ⟨⟨hp, hentA⟩, hrest⟩ := hch
      simp only [tipFrom]
      exact ih a.entry (by rw [hentA]; exact isHex64_sha256 _) hrest

/-- C5: single-character tamper localization.  Take any well-formed,
internally consistent chain `pre ++ r :: suf` stored with its matching
anchor, and replace one byte of record `r`'s persisted row — any position
`i` of the row, replaced by any different byte `c` (a `'\n'` byte splits
the stored line in two, any other byte substitutes in place).  Then the
verifier reports the log tampered exactly at `r`'s position
`pre.length + 1`, unless the alteration hit the timestamp or value field
and produced a second preimage of the very same SHA-256 entry hash (the
bracketed alternative exhibits that colliding payload, which a
collision-resistant hash renders infeasible). -/
theorem c5_single_char_tamper {pre suf : List Rec} {r : Rec} {hdr : Str}
    {i : Nat} {c : Char}
    (hg : goodRecs (pre ++ r :: suf) = true)
    (hch : chainOk ZERO_HASH (pre ++ r :: suf) = true)
    (hi : i < (core r).length) (hc2 : c ≠ (core r).get ⟨i, hi⟩) :
    tamperPos (verifyChain
        (hdr :: (pre.map encodeRec ++ (modLines r i c ++ suf.map encodeRec)))
        (tipFrom ZERO_HASH (pre ++ r :: suf)))
      = some (pre.length + 1)
    ∨ ∃ pl2, pl2 ≠ payload r ∧ sha256 (r.prev ++ pl2) = r.entry := by
  obtain ⟨hgpre, hgr⟩ := goodRecs_split hg
  obtain ⟨hchpre, hprev, hent⟩ := chainOk_append_mid pre ZERO_HASH r suf hch
  have hphex : isHex64 r.prev = true := by
    rw [hprev]
    exact tipFrom_hex pre ZERO_HASH isHex64_zero hchpre
  rcases scan_modLines hgr hphex hent hi hc2 pre.length (suf.map encodeRec)
    with ⟨reason, hscan⟩ | hcol
  · left
    have hstep : scanLines ZERO_HASH 0
        (pre.map encodeRec ++ (modLines r i c ++ suf.map encodeRec))
        = .tampered (pre.length + 1) reason := by
      rw [scanLines_append, scanLines_encode hgpre hchpre isHex64_zero 0]
      simp only [Nat.zero_add]
      rw [← hprev]
      exact hscan
    simp only [verifyChain, List.drop_one, List.tail_cons, hstep, tamperPos]
  · right
    exact hcol

end IotLogger

namespace IotLogger

/-- C5 witness: for the one-record chain on `("t","1")`, replacing the first
byte of the stored row by `'x'` is reported tampered at position 1 (or would
exhibit a second preimage, which the concrete run does not). -/
theorem c5_single_char_tamper_witness :
    goodRecs (([] : List Rec) ++ (⟨("t").data, ("1").data, ZERO_HASH,
        sha256 (ZERO_HASH ++ ("t").data ++ ',' :: ("1").data)⟩ : Rec) :: []) = true ∧
    chainOk ZERO_HASH (([] : List Rec) ++ (⟨("t").data, ("1").data, ZERO_HASH,
        sha256 (ZERO_HASH ++ ("t").data ++ ',' :: ("1").data)⟩ : Rec) :: []) = true ∧
    0 < (core (⟨("t").data, ("1").data, ZERO_HASH,
        sha256 (ZERO_HASH ++ ("t").data ++ ',' :: ("1").data)⟩ : Rec)).length ∧
    (tamperPos (verifyChain
        ((HEADER ++ ['\r']) :: (List.map encodeRec ([] : List Rec)
          ++ (modLines (⟨("t").data, ("1").data, ZERO_HASH,
                sha256 (ZERO_HASH ++ ("t").data ++ ',' :: ("1").data)⟩ : Rec) 0 'x'
            ++ List.map encodeRec ([] : List Rec))))
        (tipFrom ZERO_HASH (([] : List Rec)
          ++ (⟨("t").data, ("1").data, ZERO_HASH,
              sha256 (ZERO_HASH ++ ("t").data ++ ',' :: ("1").data)⟩ : Rec) :: [])))
      = some (([] : List Rec).length + 1)
    ∨ ∃ pl2, pl2 ≠ payload (⟨("t").data, ("1").data, ZERO_HASH,
          sha256 (ZERO_HASH ++ ("t").data ++ ',' :: ("1").data)⟩ : Rec)
        ∧ sha256 ((⟨("t").data, ("1").data, ZERO_HASH,
            sha256 (ZERO_HASH ++ ("t").data ++ ',' :: ("1").data)⟩ : Rec).prev ++ pl2)
          = (⟨("t").data, ("1").data, ZERO_HASH,
              sha256 (ZERO_HASH ++ ("t").data ++ ',' :: ("1").data)⟩ : Rec).entry) :=
  ⟨by decide, by decide, by decide,
    c5_single_char_tamper (by decide) (by decide) (by decide) (by decide)⟩

end IotLogger
